import Mathlib

/-!
Verification of the SQL-DB persistence stack: the append-only log-structured
disk engine (`src/storage/disk.rs`), the generic engine interface with its
prefix scan (`src/storage/engine.rs`), the MVCC transaction layer
(`src/storage/mvcc.rs`), and the SQL session wrapper
(`src/sql/engine/mod.rs`, `src/sql/engine/kv.rs`).

Keys and values are byte strings; we model bytes as `Nat` (in the program they
are `u8`, so well-formedness predicates add `< 256` where order or decoding
matters).  The ordered key-value engine underneath the MVCC layer (a
`BTreeMap`-backed engine satisfying the `Engine` trait contract) is modelled
as an association list sorted strictly ascending by byte-lexicographic order.
-/

namespace SqlDb

/-! ### Byte-lexicographic order on byte strings

`ltB`/`leB` mirror the `Ord` instance of `Vec<u8>` that orders the keydir
`BTreeMap` and the engine scan bounds. -/

def ltB : List Nat → List Nat → Bool
  | [], [] => false
  | [], _ :: _ => true
  | _ :: _, [] => false
  | a :: as, b :: bs => if a < b then true else if b < a then false else ltB as bs

def leB : List Nat → List Nat → Bool
  | [], _ => true
  | _ :: _, [] => false
  | a :: as, b :: bs => if a < b then true else if b < a then false else leB as bs

theorem ltB_irrefl (a : List Nat) : ltB a a = false := by
  induction a with
  | nil => rfl
  | cons x xs ih => simp [ltB, ih]

theorem leB_refl (a : List Nat) : leB a a = true := by
  induction a with
  | nil => rfl
  | cons x xs ih => simp [leB, ih]

theorem leB_iff (a b : List Nat) : leB a b = true ↔ ltB a b = true ∨ a = b := by
  induction a generalizing b with
  | nil => cases b <;> simp [leB, ltB]
  | cons x xs ih =>
    cases b with
    | nil => simp [leB, ltB]
    | cons y ys =>
      by_cases hxy : x < y
      · simp [leB, ltB, hxy]
      · by_cases hyx : y < x
        · simp [leB, ltB, hxy, hyx]
          intro h
          exact absurd h (by omega)
        · have heq : x = y := Nat.le_antisymm (Nat.not_lt.mp hyx) (Nat.not_lt.mp hxy)
          subst heq
          simp [leB, ltB, hxy, hyx, ih]

theorem ltB_trans {a b c : List Nat} (h₁ : ltB a b = true) (h₂ : ltB b c = true) :
    ltB a c = true := by
  induction a generalizing b c with
  | nil =>
    cases b with
    | nil => simp [ltB] at h₁
    | cons y ys => cases c with
      | nil => simp [ltB] at h₂
      | cons z zs => simp [ltB]
  | cons x xs ih =>
    cases b with
    | nil => simp [ltB] at h₁
    | cons y ys =>
      cases c with
      | nil => simp [ltB] at h₂
      | cons z zs =>
        simp only [ltB] at h₁ h₂ ⊢
        by_cases hxy : x < y
        · by_cases hyz : y < z
          · simp [Nat.lt_trans hxy hyz]
          · by_cases hzy : z < y
            · simp [hyz, hzy] at h₂
            · have : y = z := Nat.le_antisymm (Nat.not_lt.mp hzy) (Nat.not_lt.mp hyz)
              subst this; simp [hxy]
        · by_cases hyx : y < x
          · simp [hxy, hyx] at h₁
          · have : x = y := Nat.le_antisymm (Nat.not_lt.mp hyx) (Nat.not_lt.mp hxy)
            subst this
            by_cases hyz : x < z
            · simp [hyz]
            · by_cases hzy : z < x
              · simp [hyz, hzy] at h₂
              · have : x = z := Nat.le_antisymm (Nat.not_lt.mp hzy) (Nat.not_lt.mp hyz)
                subst this
                simp [hxy] at h₁ h₂ ⊢
                exact ih h₁ h₂

theorem ltB_asymm {a b : List Nat} (h : ltB a b = true) : ltB b a = false := by
  by_contra hc
  have hba : ltB b a = true := by
    cases hb : ltB b a
    · exact absurd hb hc
    · rfl
  have := ltB_trans h hba
  rw [ltB_irrefl] at this
  exact Bool.noConfusion this

theorem ltB_or_eq_or_gt (a b : List Nat) :
    ltB a b = true ∨ a = b ∨ ltB b a = true := by
  induction a generalizing b with
  | nil => cases b <;> simp [ltB]
  | cons x xs ih =>
    cases b with
    | nil => simp [ltB]
    | cons y ys =>
      by_cases hxy : x < y
      · left; simp [ltB, hxy]
      · by_cases hyx : y < x
        · right; right; simp [ltB, hyx]
        · have : x = y := Nat.le_antisymm (Nat.not_lt.mp hyx) (Nat.not_lt.mp hxy)
          subst this
          rcases ih ys with h | h | h
          · left; simp [ltB, h]
          · right; left; simp [h]
          · right; right; simp [ltB, h]

theorem leB_of_ltB {a b : List Nat} (h : ltB a b = true) : leB a b = true :=
  (leB_iff a b).mpr (Or.inl h)

theorem ltB_of_not_leB {a b : List Nat} (h : leB a b = false) : ltB b a = true := by
  rcases ltB_or_eq_or_gt a b with h1 | h1 | h1
  · rw [leB_of_ltB h1] at h; exact Bool.noConfusion h
  · subst h1; rw [leB_refl] at h; exact Bool.noConfusion h
  · exact h1

theorem not_ltB_self_of_leB {a b : List Nat} (h : leB a b = true) : ltB b a = false := by
  rcases (leB_iff a b).mp h with h1 | h1
  · exact ltB_asymm h1
  · subst h1; exact ltB_irrefl a

theorem leB_trans {a b c : List Nat} (h₁ : leB a b = true) (h₂ : leB b c = true) :
    leB a c = true := by
  rcases (leB_iff a b).mp h₁ with ha | ha
  · rcases (leB_iff b c).mp h₂ with hb | hb
    · exact leB_of_ltB (ltB_trans ha hb)
    · subst hb; exact leB_of_ltB ha
  · subst ha; exact h₂

theorem leB_antisymm {a b : List Nat} (h₁ : leB a b = true) (h₂ : leB b a = true) :
    a = b := by
  rcases (leB_iff a b).mp h₁ with ha | ha
  · rcases (leB_iff b a).mp h₂ with hb | hb
    · have := ltB_trans ha hb
      rw [ltB_irrefl] at this
      exact Bool.noConfusion this
    · exact hb.symm
  · exact ha

/-- Prepending a common prefix preserves strict byte order. -/
theorem ltB_append_left (p a b : List Nat) : ltB (p ++ a) (p ++ b) = ltB a b := by
  induction p with
  | nil => rfl
  | cons x xs ih => simp [ltB, ih]

theorem leB_append_left (p a b : List Nat) : leB (p ++ a) (p ++ b) = leB a b := by
  induction p with
  | nil => rfl
  | cons x xs ih => simp [leB, ih]

/-- A byte string lying between two strings that share a prefix `p` itself
starts with `p`, and its remainder lies between the two remainders. -/
theorem between_shared_pfx {p a b x : List Nat}
    (h₁ : leB (p ++ a) x = true) (h₂ : leB x (p ++ b) = true) :
    ∃ s, x = p ++ s ∧ leB a s = true ∧ leB s b = true := by
  induction p generalizing x with
  | nil => exact ⟨x, rfl, h₁, h₂⟩
  | cons c cs ih =>
    cases x with
    | nil => simp [leB] at h₁
    | cons y ys =>
      by_cases hcy : c < y
      · exfalso
        simp [leB, hcy, Nat.lt_asymm hcy] at h₂
      · by_cases hyc : y < c
        · exfalso
          simp [leB, hyc, Nat.lt_asymm hyc] at h₁
        · have : c = y := Nat.le_antisymm (Nat.not_lt.mp hyc) (Nat.not_lt.mp hcy)
          subst this
          simp only [List.cons_append, leB, Nat.lt_irrefl, if_false] at h₁ h₂
          obtain ⟨s, hs, hsa, hsb⟩ := ih h₁ h₂
          exact ⟨s, by simp [hs], hsa, hsb⟩

/-! ### Sorted association lists

The MVCC layer is generic over the `Engine` trait (`src/storage/engine.rs`):
an ordered byte-string key-value store with `set`/`get`/`delete`/`scan`.
Both implementations keep a `BTreeMap` as source of truth for ordering, so we
model an engine state as an association list sorted strictly ascending by
`ltB`.  The same structure models the disk engine's keydir
(`BTreeMap<Vec<u8>, (u64, u32)>`). -/

abbrev AListB (β : Type) : Type := List (List Nat × β)

/-- `BTreeMap::get`. -/
def aGet {β : Type} (k : List Nat) : AListB β → Option β
  | [] => none
  | (k', v) :: rest => if k = k' then some v else aGet k rest

/-- `BTreeMap::insert` (ordered insert, replacing an existing binding). -/
def aSet {β : Type} (k : List Nat) (v : β) : AListB β → AListB β
  | [] => [(k, v)]
  | (k', v') :: rest =>
    if ltB k k' then (k, v) :: (k', v') :: rest
    else if k = k' then (k, v) :: rest
    else (k', v') :: aSet k v rest

/-- `BTreeMap::remove`; absent keys are ignored (`Engine::delete` contract). -/
def aDelete {β : Type} (k : List Nat) : AListB β → AListB β
  | [] => []
  | (k', v') :: rest => if k = k' then rest else (k', v') :: aDelete k rest

/-- Entries whose key satisfies `P`, in store order. -/
def aFilterK {β : Type} (P : List Nat → Bool) (l : AListB β) : AListB β :=
  l.filter (fun e => P e.1)

/-- Strictly-ascending key order: the `BTreeMap` invariant. -/
def SortedA {β : Type} (l : AListB β) : Prop :=
  l.Pairwise (fun a b => ltB a.1 b.1 = true)

theorem sortedA_nil {β : Type} : SortedA ([] : AListB β) := List.Pairwise.nil

theorem sortedA_filter {β : Type} (P : List Nat → Bool) {l : AListB β}
    (h : SortedA l) : SortedA (aFilterK P l) :=
  List.Pairwise.filter _ h

theorem aSet_forall_ltB {β : Type} {k : List Nat} {v : β} {m : AListB β}
    (h : ∀ e ∈ m, ltB k e.1 = true) : aSet k v m = (k, v) :: m := by
  cases m with
  | nil => rfl
  | cons e rest =>
    have := h e (by exact List.mem_cons_self e rest)
    simp [aSet, this]

theorem mem_of_mem_aSet {β : Type} {k : List Nat} {v : β} {m : AListB β}
    {x : List Nat × β} (hx : x ∈ aSet k v m) : x = (k, v) ∨ x ∈ m := by
  induction m with
  | nil =>
    simp only [aSet] at hx
    exact Or.inl (List.mem_singleton.mp hx)
  | cons e rest ih =>
    cases e with
    | mk k' v' =>
      by_cases hlt : ltB k k' = true
      · simp only [aSet, hlt, if_true] at hx
        rcases List.mem_cons.mp hx with rfl | hx
        · exact Or.inl rfl
        · exact Or.inr hx
      · by_cases heq : k = k'
        · subst heq
          have hstep : aSet k v ((k, v') :: rest) = (k, v) :: rest := by
            simp [aSet, ltB_irrefl]
          rw [hstep] at hx
          rcases List.mem_cons.mp hx with rfl | hx
          · exact Or.inl rfl
          · exact Or.inr (List.mem_cons_of_mem _ hx)
        · simp only [aSet, hlt, heq, if_false] at hx
          rcases List.mem_cons.mp hx with rfl | hx
          · exact Or.inr (List.mem_cons_self _ _)
          · rcases ih hx with h | h
            · exact Or.inl h
            · exact Or.inr (List.mem_cons_of_mem _ h)

theorem sortedA_aSet {β : Type} (k : List Nat) (v : β) {l : AListB β}
    (h : SortedA l) : SortedA (aSet k v l) := by
  induction l with
  | nil => simp [aSet, SortedA]
  | cons e rest ih =>
    obtain ⟨he, hrest⟩ := List.pairwise_cons.mp h
    cases e with
    | mk k' v' =>
      by_cases hlt : ltB k k' = true
      · simp only [aSet, hlt, if_true]
        refine List.pairwise_cons.mpr ⟨?_, h⟩
        intro x hx
        rcases List.mem_cons.mp hx with rfl | hx
        · exact hlt
        · exact ltB_trans hlt (he x hx)
      · by_cases heq : k = k'
        · subst heq
          have hstep : aSet k v ((k, v') :: rest) = (k, v) :: rest := by
            simp [aSet, ltB_irrefl]
          rw [hstep]
          refine List.pairwise_cons.mpr ⟨?_, hrest⟩
          intro x hx
          exact he x hx
        · simp only [aSet, hlt, heq, if_false]
          refine List.pairwise_cons.mpr ⟨?_, ih hrest⟩
          intro x hx
          rcases mem_of_mem_aSet hx with rfl | hx
          · rcases ltB_or_eq_or_gt k k' with h1 | h1 | h1
            · exact absurd h1 hlt
            · exact absurd h1 heq
            · exact h1
          · exact he x hx

theorem mem_of_mem_aDelete {β : Type} {k : List Nat} {m : AListB β}
    {x : List Nat × β} (hx : x ∈ aDelete k m) : x ∈ m := by
  induction m with
  | nil => simp [aDelete] at hx
  | cons e rest ih =>
    cases e with
    | mk k' v' =>
      by_cases heq : k = k'
      · simp only [aDelete, heq, if_pos rfl] at hx
        exact List.mem_cons_of_mem _ hx
      · simp only [aDelete, heq, if_false] at hx
        rcases List.mem_cons.mp hx with rfl | hx
        · exact List.mem_cons_self _ _
        · exact List.mem_cons_of_mem _ (ih hx)

theorem sortedA_aDelete {β : Type} (k : List Nat) {l : AListB β}
    (h : SortedA l) : SortedA (aDelete k l) := by
  induction l with
  | nil => exact h
  | cons e rest ih =>
    obtain ⟨he, hrest⟩ := List.pairwise_cons.mp h
    cases e with
    | mk k' v' =>
      by_cases heq : k = k'
      · simp only [aDelete, heq, if_pos rfl]
        exact hrest
      · simp only [aDelete, heq, if_false]
        refine List.pairwise_cons.mpr ⟨?_, ih hrest⟩
        intro x hx
        exact he x (mem_of_mem_aDelete hx)

theorem aGet_aSet_self {β : Type} (k : List Nat) (v : β) (m : AListB β) :
    aGet k (aSet k v m) = some v := by
  induction m with
  | nil => simp [aSet, aGet]
  | cons e rest ih =>
    cases e with
    | mk k' v' =>
      by_cases hlt : ltB k k' = true
      · simp [aSet, hlt, aGet]
      · by_cases heq : k = k'
        · subst heq
          simp [aSet, ltB_irrefl, aGet]
        · simp [aSet, hlt, heq, aGet, ih]

theorem aGet_aSet_ne {β : Type} {k k' : List Nat} (hne : k' ≠ k) (v : β)
    (m : AListB β) : aGet k' (aSet k v m) = aGet k' m := by
  induction m with
  | nil => simp [aSet, aGet, hne]
  | cons e rest ih =>
    cases e with
    | mk k2 v2 =>
      by_cases hlt : ltB k k2 = true
      · simp [aSet, hlt, aGet, hne]
      · by_cases heq : k = k2
        · subst heq
          simp [aSet, ltB_irrefl, aGet, hne]
        · by_cases h2 : k' = k2
          · simp [aSet, hlt, heq, aGet, h2]
          · simp [aSet, hlt, heq, aGet, h2, ih]

theorem aGet_some_mem {β : Type} {k : List Nat} {w : β} {m : AListB β}
    (hg : aGet k m = some w) : (k, w) ∈ m := by
  induction m with
  | nil => simp [aGet] at hg
  | cons e rest ih =>
    cases e with
    | mk a b =>
      by_cases h2 : k = a
      · subst h2
        simp [aGet] at hg
        subst hg
        exact List.mem_cons_self _ _
      · simp [aGet, h2] at hg
        exact List.mem_cons_of_mem _ (ih hg)

theorem aGet_aDelete_self {β : Type} (k : List Nat) {m : AListB β}
    (h : SortedA m) : aGet k (aDelete k m) = none := by
  induction m with
  | nil => rfl
  | cons e rest ih =>
    obtain ⟨he, hrest⟩ := List.pairwise_cons.mp h
    cases e with
    | mk k' v' =>
      by_cases heq : k = k'
      · subst heq
        simp only [aDelete, if_pos rfl]
        cases hg : aGet k rest with
        | none => exact hg
        | some w =>
          exfalso
          have := he (k, w) (aGet_some_mem hg)
          rw [ltB_irrefl] at this
          exact Bool.noConfusion this
      · simp only [aDelete, heq, if_false, aGet, heq, if_neg heq]
        exact ih hrest

theorem aGet_aDelete_ne {β : Type} {k k' : List Nat} (hne : k' ≠ k)
    (m : AListB β) : aGet k' (aDelete k m) = aGet k' m := by
  induction m with
  | nil => rfl
  | cons e rest ih =>
    cases e with
    | mk k2 v2 =>
      by_cases heq : k = k2
      · subst heq
        simp [aDelete, aGet, hne]
      · by_cases h2 : k' = k2
        · simp [aDelete, heq, aGet, h2]
        · simp [aDelete, heq, aGet, h2, ih]

/-- `aSet` inserts or replaces a single entry, leaving everything else in
place. -/
theorem aSet_decomp {β : Type} (k : List Nat) (v : β) (m : AListB β) :
    (∃ xs ys, m = xs ++ ys ∧ aSet k v m = xs ++ (k, v) :: ys ∧
      ∀ e ∈ xs, e.1 ≠ k) ∨
    (∃ xs w ys, m = xs ++ (k, w) :: ys ∧ aSet k v m = xs ++ (k, v) :: ys ∧
      ∀ e ∈ xs, e.1 ≠ k) := by
  induction m with
  | nil => exact Or.inl ⟨[], [], rfl, rfl, by simp⟩
  | cons e rest ih =>
    cases e with
    | mk k' v' =>
      by_cases hlt : ltB k k' = true
      · refine Or.inl ⟨[], (k', v') :: rest, rfl, ?_, by simp⟩
        simp [aSet, hlt]
      · by_cases heq : k = k'
        · subst heq
          refine Or.inr ⟨[], v', rest, rfl, ?_, by simp⟩
          simp [aSet, ltB_irrefl]
        · have hne : k' ≠ k := fun h => heq h.symm
          rcases ih with ⟨xs, ys, hm, hset, hxs⟩ | ⟨xs, w, ys, hm, hset, hxs⟩
          · refine Or.inl ⟨(k', v') :: xs, ys, by simp [hm], ?_, ?_⟩
            · simp [aSet, hlt, heq, hset]
            · intro e hee
              rcases List.mem_cons.mp hee with rfl | hee
              · exact hne
              · exact hxs e hee
          · refine Or.inr ⟨(k', v') :: xs, w, ys, by simp [hm], ?_, ?_⟩
            · simp [aSet, hlt, heq, hset]
            · intro e hee
              rcases List.mem_cons.mp hee with rfl | hee
              · exact hne
              · exact hxs e hee

theorem aFilterK_cons {β : Type} (P : List Nat → Bool) (e : List Nat × β)
    (l : AListB β) :
    aFilterK P (e :: l) =
      if P e.1 = true then e :: aFilterK P l else aFilterK P l := by
  simp [aFilterK, List.filter_cons]

theorem mem_of_mem_aFilterK {β : Type} {P : List Nat → Bool} {l : AListB β}
    {x : List Nat × β} (hx : x ∈ aFilterK P l) : x ∈ l :=
  List.mem_of_mem_filter hx

theorem pred_of_mem_aFilterK {β : Type} {P : List Nat → Bool} {l : AListB β}
    {x : List Nat × β} (hx : x ∈ aFilterK P l) : P x.1 = true := by
  unfold aFilterK at hx
  exact List.of_mem_filter (p := fun e : List Nat × β => P e.1) hx

/-- Inserting a key the filter rejects does not change the filtered view. -/
theorem aFilterK_aSet_out {β : Type} {P : List Nat → Bool} {k : List Nat}
    (v : β) (hP : P k = false) (m : AListB β) :
    aFilterK P (aSet k v m) = aFilterK P m := by
  induction m with
  | nil => simp [aSet, aFilterK_cons, hP, aFilterK]
  | cons e rest ih =>
    cases e with
    | mk k' v' =>
      by_cases hlt : ltB k k' = true
      · rw [show aSet k v ((k', v') :: rest) = (k, v) :: (k', v') :: rest by
          simp [aSet, hlt]]
        rw [aFilterK_cons]
        simp [hP]
      · by_cases heq : k = k'
        · subst heq
          rw [show aSet k v ((k, v') :: rest) = (k, v) :: rest by
            simp [aSet, ltB_irrefl]]
          rw [aFilterK_cons, aFilterK_cons]
          simp [hP]
        · rw [show aSet k v ((k', v') :: rest) = (k', v') :: aSet k v rest by
            simp [aSet, hlt, heq]]
          rw [aFilterK_cons, aFilterK_cons, ih]

/-- Inserting a key the filter accepts commutes with filtering, provided the
store is sorted. -/
theorem aFilterK_aSet_in {β : Type} {P : List Nat → Bool} {k : List Nat}
    (v : β) (hP : P k = true) {m : AListB β} (hs : SortedA m) :
    aFilterK P (aSet k v m) = aSet k v (aFilterK P m) := by
  induction m with
  | nil => simp [aSet, aFilterK, hP]
  | cons e rest ih =>
    obtain ⟨he, hrest⟩ := List.pairwise_cons.mp hs
    cases e with
    | mk k' v' =>
      by_cases hlt : ltB k k' = true
      · rw [show aSet k v ((k', v') :: rest) = (k, v) :: (k', v') :: rest by
          simp [aSet, hlt]]
        rw [aFilterK_cons]
        simp only [hP, if_true]
        have hall : ∀ x ∈ aFilterK P ((k', v') :: rest), ltB k x.1 = true := by
          intro x hx
          rcases List.mem_cons.mp (mem_of_mem_aFilterK hx) with rfl | hxr
          · exact hlt
          · exact ltB_trans hlt (he x hxr)
        rw [aSet_forall_ltB hall]
      · by_cases heq : k = k'
        · subst heq
          rw [show aSet k v ((k, v') :: rest) = (k, v) :: rest by
            simp [aSet, ltB_irrefl]]
          rw [aFilterK_cons, aFilterK_cons]
          simp only [hP, if_true]
          rw [show aSet k v ((k, v') :: aFilterK P rest) =
            (k, v) :: aFilterK P rest by simp [aSet, ltB_irrefl]]
        · rw [show aSet k v ((k', v') :: rest) = (k', v') :: aSet k v rest by
              simp [aSet, hlt, heq]]
          rw [aFilterK_cons, aFilterK_cons]
          by_cases hPk : P k' = true
          · simp only [hPk, if_true]
            rw [ih hrest]
            rw [show aSet k v ((k', v') :: aFilterK P rest) =
              (k', v') :: aSet k v (aFilterK P rest) by simp [aSet, hlt, heq]]
          · simp only [hPk, if_false]
            exact ih hrest

/-- Deleting a key the filter rejects does not change the filtered view. -/
theorem aFilterK_aDelete_out {β : Type} {P : List Nat → Bool} {k : List Nat}
    (hP : P k = false) (m : AListB β) :
    aFilterK P (aDelete k m) = aFilterK P m := by
  induction m with
  | nil => rfl
  | cons e rest ih =>
    cases e with
    | mk k' v' =>
      by_cases heq : k = k'
      · subst heq
        rw [show aDelete k ((k, v') :: rest) = rest by simp [aDelete]]
        rw [aFilterK_cons]
        simp [hP]
      · rw [show aDelete k ((k', v') :: rest) = (k', v') :: aDelete k rest by
          simp [aDelete, heq]]
        rw [aFilterK_cons, aFilterK_cons, ih]

/-- Deleting a key the filter accepts commutes with filtering. -/
theorem aFilterK_aDelete_in {β : Type} {P : List Nat → Bool} {k : List Nat}
    (hP : P k = true) (m : AListB β) :
    aFilterK P (aDelete k m) = aDelete k (aFilterK P m) := by
  induction m with
  | nil => rfl
  | cons e rest ih =>
    cases e with
    | mk k' v' =>
      by_cases heq : k = k'
      · subst heq
        rw [show aDelete k ((k, v') :: rest) = rest by simp [aDelete]]
        rw [aFilterK_cons]
        simp only [hP, if_true]
        rw [show aDelete k ((k, v') :: aFilterK P rest) = aFilterK P rest by
          simp [aDelete]]
      · rw [show aDelete k ((k', v') :: rest) = (k', v') :: aDelete k rest by
          simp [aDelete, heq]]
        rw [aFilterK_cons, aFilterK_cons]
        by_cases hPk : P k' = true
        · simp only [hPk, if_true]
          rw [ih]
          rw [show aDelete k ((k', v') :: aFilterK P rest) =
            (k', v') :: aDelete k (aFilterK P rest) by simp [aDelete, heq]]
        · simp only [hPk, if_false]
          exact ih

/-- In a sorted list, an entry that dominates every key is the last entry. -/
theorem getLast_of_max {β : Type} {l : AListB β} {e : List Nat × β}
    (hs : SortedA l) (hmem : e ∈ l) (hmax : ∀ x ∈ l, leB x.1 e.1 = true) :
    l.getLast? = some e := by
  induction l with
  | nil => simp at hmem
  | cons x rest ih =>
    cases rest with
    | nil =>
      rcases List.mem_singleton.mp hmem with rfl
      rfl
    | cons y rest2 =>
      obtain ⟨hx, hrest⟩ := List.pairwise_cons.mp hs
      have hmem2 : e ∈ y :: rest2 := by
        rcases List.mem_cons.mp hmem with rfl | h
        · exfalso
          have h1 := hmax y (List.mem_cons_of_mem _ (List.mem_cons_self _ _))
          have h2 := hx y (List.mem_cons_self _ _)
          have := not_ltB_self_of_leB h1
          rw [this] at h2
          exact Bool.noConfusion h2
        · exact h
      have := ih hrest hmem2
        (fun z hz => hmax z (List.mem_cons_of_mem _ hz))
      rw [List.getLast?_cons_cons]
      exact this

/-! ### Key codec

`keycode.rs` (the `serialize_key`/`deserialize_key` helpers used by
`mvcc.rs`) is not among the provided sources, so the codec is modelled from
the spec (§4.2): a distinct discriminator byte per variant, fixed-width
big-endian `u64`s, and byte strings escaped (`0x00 → 0x00 0xFF`) and
terminated with `0x00 0x00`. -/

/-- `n`-byte big-endian encoding of `v` (mod `256^n`), as `u64::to_be_bytes`
and `u32::to_be_bytes` produce. -/
def beN : Nat → Nat → List Nat
  | 0, _ => []
  | n + 1, v => beN n (v / 256) ++ [v % 256]

/-- Big-endian decoding, as `u64::from_be_bytes` / `u32::from_be_bytes`. -/
def deBE (bs : List Nat) : Nat := bs.foldl (fun acc b => acc * 256 + b) 0

theorem beN_length (n v : Nat) : (beN n v).length = n := by
  induction n generalizing v with
  | zero => rfl
  | succ n ih => simp [beN, ih]

theorem deBE_append_one (a : List Nat) (x : Nat) :
    deBE (a ++ [x]) = deBE a * 256 + x := by
  simp [deBE, List.foldl_append]

theorem deBE_beN {n v : Nat} (h : v < 256 ^ n) : deBE (beN n v) = v := by
  induction n generalizing v with
  | zero =>
    have : v = 0 := by
      have h1 : (256 : Nat) ^ 0 = 1 := by norm_num
      omega
    subst this
    rfl
  | succ n ih =>
    have hb : v / 256 < 256 ^ n := by
      have e : (256 : Nat) ^ (n + 1) = 256 * 256 ^ n := by ring
      rw [e] at h
      exact Nat.div_lt_of_lt_mul h
    rw [beN, deBE_append_one, ih hb]
    omega

theorem beN_inj {n v1 v2 : Nat} (h1 : v1 < 256 ^ n) (h2 : v2 < 256 ^ n)
    (h : beN n v1 = beN n v2) : v1 = v2 := by
  rw [← deBE_beN h1, ← deBE_beN h2, h]

theorem mem_beN_lt (n v : Nat) : ∀ b ∈ beN n v, b < 256 := by
  induction n generalizing v with
  | zero => simp [beN]
  | succ n ih =>
    intro b hb
    rw [beN] at hb
    rcases List.mem_append.mp hb with h | h
    · exact ih _ b h
    · rcases List.mem_singleton.mp h with rfl
      exact Nat.mod_lt _ (by norm_num)

/-- Comparing equal-length byte strings with suffixes appended. -/
theorem ltB_append_eqlen {a b : List Nat} (s t : List Nat)
    (h : a.length = b.length) :
    ltB (a ++ s) (b ++ t) = if a = b then ltB s t else ltB a b := by
  induction a generalizing b with
  | nil =>
    cases b with
    | nil => simp
    | cons y ys => simp at h
  | cons x xs ih =>
    cases b with
    | nil => simp at h
    | cons y ys =>
      simp only [List.length_cons, Nat.succ_inj] at h
      by_cases hxy : x < y
      · have hne : (x :: xs) ≠ (y :: ys) := by
          intro hcontra
          injection hcontra with hh _
          omega
        simp [ltB, hxy, hne]
      · by_cases hyx : y < x
        · have hne : (x :: xs) ≠ (y :: ys) := by
            intro hcontra
            injection hcontra with hh _
            omega
          simp [ltB, hxy, hyx, hne]
        · have hxe : x = y := by omega
          subst hxe
          rw [show (x :: xs) ++ s = x :: (xs ++ s) from rfl,
              show (x :: ys) ++ t = x :: (ys ++ t) from rfl]
          rw [show ltB (x :: (xs ++ s)) (x :: (ys ++ t)) =
            ltB (xs ++ s) (ys ++ t) by simp [ltB]]
          rw [ih h]
          by_cases he : xs = ys
          · simp [he]
          · have hne : (x :: xs) ≠ (x :: ys) := by
              intro hcontra
              injection hcontra with _ h2
              exact he h2
            rw [if_neg he, if_neg hne]
            rw [show ltB (x :: xs) (x :: ys) = ltB xs ys by simp [ltB]]

/-- Big-endian order agrees with numeric order for bounded values. -/
theorem beN_ltB_iff {n v1 v2 : Nat} (h1 : v1 < 256 ^ n) (h2 : v2 < 256 ^ n) :
    ltB (beN n v1) (beN n v2) = true ↔ v1 < v2 := by
  induction n generalizing v1 v2 with
  | zero =>
    have e1 : (256 : Nat) ^ 0 = 1 := by norm_num
    rw [e1] at h1 h2
    have hv1 : v1 = 0 := by omega
    have hv2 : v2 = 0 := by omega
    subst hv1; subst hv2
    simp [beN, ltB]
  | succ n ih =>
    have hb1 : v1 / 256 < 256 ^ n := by
      have e : (256 : Nat) ^ (n + 1) = 256 * 256 ^ n := by ring
      rw [e] at h1
      exact Nat.div_lt_of_lt_mul h1
    have hb2 : v2 / 256 < 256 ^ n := by
      have e : (256 : Nat) ^ (n + 1) = 256 * 256 ^ n := by ring
      rw [e] at h2
      exact Nat.div_lt_of_lt_mul h2
    rw [beN, beN, ltB_append_eqlen _ _ (by simp [beN_length])]
    by_cases hd : beN n (v1 / 256) = beN n (v2 / 256)
    · have hdiv : v1 / 256 = v2 / 256 := beN_inj hb1 hb2 hd
      simp only [hd, if_true]
      have hone : ltB [v1 % 256] [v2 % 256] = true ↔ v1 % 256 < v2 % 256 := by
        by_cases hab : v1 % 256 < v2 % 256
        · simp [ltB, hab]
        · by_cases hba : v2 % 256 < v1 % 256 <;> simp [ltB, hab, hba]
      rw [hone]
      omega
    · have hdiv : v1 / 256 ≠ v2 / 256 := fun hc => hd (by rw [hc])
      simp only [hd, if_false]
      rw [ih hb1 hb2]
      omega

theorem beN_leB_iff {n v1 v2 : Nat} (h1 : v1 < 256 ^ n) (h2 : v2 < 256 ^ n) :
    leB (beN n v1) (beN n v2) = true ↔ v1 ≤ v2 := by
  rw [leB_iff]
  constructor
  · rintro (h | h)
    · exact Nat.le_of_lt ((beN_ltB_iff h1 h2).mp h)
    · exact Nat.le_of_eq (beN_inj h1 h2 h)
  · intro h
    rcases Nat.lt_or_ge v1 v2 with hlt | hge
    · exact Or.inl ((beN_ltB_iff h1 h2).mpr hlt)
    · have : v1 = v2 := Nat.le_antisymm h hge
      exact Or.inr (by rw [this])

/-- Modelled from the spec (§4.2): inner `0x00` bytes of an embedded byte
string are escaped as `0x00 0xFF`. -/
def escBody : List Nat → List Nat
  | [] => []
  | 0 :: rest => 0 :: 255 :: escBody rest
  | b :: rest => b :: escBody rest

/-- Modelled from the spec (§4.2): an embedded byte string is its escaped
body followed by the terminator `0x00 0x00`. -/
def esc (k : List Nat) : List Nat := escBody k ++ [0, 0]

/-- Modelled from the spec (§4.2): decoding of an escaped byte string;
returns the decoded string and the remaining input. -/
def unesc : List Nat → Option (List Nat × List Nat)
  | 0 :: 0 :: rest => some ([], rest)
  | 0 :: 255 :: rest =>
    match unesc rest with
    | some (k, s) => some (0 :: k, s)
    | none => none
  | 0 :: _ => none
  | [] => none
  | b :: rest =>
    match unesc rest with
    | some (k, s) => some (b :: k, s)
    | none => none

theorem unesc_escBody (k s : List Nat) :
    unesc (escBody k ++ (0 :: 0 :: s)) = some (k, s) := by
  induction k with
  | nil => simp [escBody, unesc]
  | cons b rest ih =>
    cases b with
    | zero =>
      simp only [escBody, List.cons_append, unesc]
      rw [show (escBody rest).append (0 :: 0 :: s) =
        escBody rest ++ (0 :: 0 :: s) from rfl]
      rw [ih]
    | succ m =>
      have hu : unesc ((m + 1) :: (escBody rest ++ (0 :: 0 :: s))) =
          match unesc (escBody rest ++ (0 :: 0 :: s)) with
          | some (k, s) => some ((m + 1) :: k, s)
          | none => none := by
        rfl
      simp only [escBody, List.cons_append, hu, ih]

theorem unesc_esc_append (k s : List Nat) :
    unesc (esc k ++ s) = some (k, s) := by
  have : esc k ++ s = escBody k ++ (0 :: 0 :: s) := by
    simp [esc]
  rw [this, unesc_escBody]

/-- The escape framing makes embedded byte strings self-delimiting. -/
theorem esc_append_inj {k1 k2 r1 r2 : List Nat}
    (h : esc k1 ++ r1 = esc k2 ++ r2) : k1 = k2 ∧ r1 = r2 := by
  have h1 := unesc_esc_append k1 r1
  have h2 := unesc_esc_append k2 r2
  rw [h] at h1
  rw [h1] at h2
  injection h2 with h3
  injection h3 with h4 h5
  exact ⟨h4, h5⟩

theorem esc_ne_nil (k : List Nat) : esc k ≠ [] := by
  simp [esc]

/-- The physical key variants of the MVCC layer
(`MvccKey` in `src/storage/mvcc.rs`, including the source's `TxnAcvtive`
spelling). -/
inductive MvccKey : Type
  | NextVersion : MvccKey
  | TxnAcvtive : Nat → MvccKey
  | TxnWrite : Nat → List Nat → MvccKey
  | Version : List Nat → Nat → MvccKey
deriving DecidableEq

/-- The prefix variants (`MvccKeyPrefix` in the source): their encodings are
strict byte prefixes of the corresponding full encodings. -/
inductive MvccKeyPfx : Type
  | NextVersion : MvccKeyPfx
  | TxnAcvtive : MvccKeyPfx
  | TxnWrite : Nat → MvccKeyPfx
  | Version : List Nat → MvccKeyPfx
deriving DecidableEq

/-- Modelled from the spec (§4.2): `MvccKey::encode` via `serialize_key` —
tag byte, then fields in order; versions as 8-byte big-endian, byte strings
escaped and terminated. -/
def encodeMvccKey : MvccKey → List Nat
  | .NextVersion => [0]
  | .TxnAcvtive v => 1 :: beN 8 v
  | .TxnWrite v k => 2 :: (beN 8 v ++ esc k)
  | .Version k v => 3 :: (esc k ++ beN 8 v)

/-- Modelled from the spec (§4.2): `MvccKeyPrefix::encode`. -/
def encodeMvccKeyPfx : MvccKeyPfx → List Nat
  | .NextVersion => [0]
  | .TxnAcvtive => [1]
  | .TxnWrite v => 2 :: beN 8 v
  | .Version k => 3 :: esc k

/-- Modelled from the spec (§4.2): `MvccKey::decode` via `deserialize_key`;
fails on any input that is not an exact encoding. -/
def decodeMvccKey : List Nat → Option MvccKey
  | 0 :: rest => if rest = [] then some .NextVersion else none
  | 1 :: rest => if rest.length = 8 then some (.TxnAcvtive (deBE rest)) else none
  | 2 :: rest =>
    if 8 ≤ rest.length then
      match unesc (rest.drop 8) with
      | some (k, s) =>
        if s = [] then some (.TxnWrite (deBE (rest.take 8)) k) else none
      | none => none
    else none
  | 3 :: rest =>
    match unesc rest with
    | some (k, s) => if s.length = 8 then some (.Version k (deBE s)) else none
    | none => none
  | _ => none

theorem decode_encode_nextVersion :
    decodeMvccKey (encodeMvccKey .NextVersion) = some .NextVersion := rfl

theorem decode_encode_txnAcvtive {v : Nat} (hv : v < 2 ^ 64) :
    decodeMvccKey (encodeMvccKey (.TxnAcvtive v)) = some (.TxnAcvtive v) := by
  have hv' : v < 256 ^ 8 := by norm_num at hv ⊢; omega
  simp [encodeMvccKey, decodeMvccKey, beN_length, deBE_beN hv']

theorem decode_encode_txnWrite {v : Nat} (k : List Nat) (hv : v < 2 ^ 64) :
    decodeMvccKey (encodeMvccKey (.TxnWrite v k)) = some (.TxnWrite v k) := by
  have hv' : v < 256 ^ 8 := by norm_num at hv ⊢; omega
  have hlen : (beN 8 v ++ esc k).length = 8 + (esc k).length := by
    simp [beN_length]
  have hdrop : (beN 8 v ++ esc k).drop 8 = esc k := by
    rw [List.drop_append_of_le_length (by simp [beN_length])]
    simp [beN_length]
  have htake : (beN 8 v ++ esc k).take 8 = beN 8 v := by
    rw [List.take_append_of_le_length (by simp [beN_length])]
    simp [beN_length]
  have hesc : unesc (esc k) = some (k, []) := by
    have := unesc_esc_append k []
    simpa using this
  simp [encodeMvccKey, decodeMvccKey, hlen, hdrop, htake, hesc, deBE_beN hv']

theorem decode_encode_version (k : List Nat) {v : Nat} (hv : v < 2 ^ 64) :
    decodeMvccKey (encodeMvccKey (.Version k v)) = some (.Version k v) := by
  have hv' : v < 256 ^ 8 := by norm_num at hv ⊢; omega
  have hesc : unesc (esc k ++ beN 8 v) = some (k, beN 8 v) := unesc_esc_append _ _
  simp [encodeMvccKey, decodeMvccKey, hesc, beN_length, deBE_beN hv']

/-! ### Value codec

The MVCC layer serializes values with `bincode` (default options): enum
variant tags as 4-byte little-endian `u32`, lengths as 8-byte little-endian
`u64`.  `bincode` is an external crate; its encoding of `u64` and
`Option<Vec<u8>>` is modelled bit-exactly below. -/

/-- `n`-byte little-endian encoding of `v`, as `bincode` writes integers. -/
def leN : Nat → Nat → List Nat
  | 0, _ => []
  | n + 1, v => v % 256 :: leN n (v / 256)

/-- Little-endian decoding. -/
def deLEN : List Nat → Nat
  | [] => 0
  | b :: rest => b + 256 * deLEN rest

theorem deLEN_leN {n v : Nat} (h : v < 256 ^ n) : deLEN (leN n v) = v := by
  induction n generalizing v with
  | zero =>
    have e1 : (256 : Nat) ^ 0 = 1 := by norm_num
    rw [e1] at h
    have : v = 0 := by omega
    subst this
    rfl
  | succ n ih =>
    have hb : v / 256 < 256 ^ n := by
      have e : (256 : Nat) ^ (n + 1) = 256 * 256 ^ n := by ring
      rw [e] at h
      exact Nat.div_lt_of_lt_mul h
    rw [leN, deLEN, ih hb]
    omega

theorem leN_length (n v : Nat) : (leN n v).length = n := by
  induction n generalizing v with
  | zero => rfl
  | succ n ih => simp [leN, ih]

/-- `bincode::deserialize::<u64>`: reads 8 little-endian bytes. -/
def deU64LE (bs : List Nat) : Option Nat :=
  if 8 ≤ bs.length then some (deLEN (bs.take 8)) else none

/-- `bincode::serialize` of an `Option<Vec<u8>>`: variant tag as 4-byte
little-endian `u32`, then for `Some` the length as `u64` and the raw bytes. -/
def encodeOptVal : Option (List Nat) → List Nat
  | none => [0, 0, 0, 0]
  | some v => 1 :: 0 :: 0 :: 0 :: (leN 8 v.length ++ v)

/-- `bincode::deserialize` of an `Option<Vec<u8>>`. -/
def decodeOptVal : List Nat → Option (Option (List Nat))
  | 0 :: 0 :: 0 :: 0 :: _ => some none
  | 1 :: 0 :: 0 :: 0 :: rest =>
    if 8 ≤ rest.length ∧ deLEN (rest.take 8) ≤ (rest.drop 8).length then
      some (some ((rest.drop 8).take (deLEN (rest.take 8))))
    else none
  | _ => none

theorem decodeOptVal_none : decodeOptVal (encodeOptVal none) = some none := rfl

theorem decodeOptVal_some {v : List Nat} (hv : v.length < 2 ^ 64) :
    decodeOptVal (encodeOptVal (some v)) = some (some v) := by
  have hv' : v.length < 256 ^ 8 := by norm_num at hv ⊢; omega
  have htake : (leN 8 v.length ++ v).take 8 = leN 8 v.length := by
    rw [List.take_append_of_le_length (by simp [leN_length])]
    simp [leN_length]
  have hdrop : (leN 8 v.length ++ v).drop 8 = v := by
    rw [List.drop_append_of_le_length (by simp [leN_length])]
    simp [leN_length]
  simp only [encodeOptVal, decodeOptVal, htake, hdrop, deLEN_leN hv']
  rw [if_pos ⟨by simp [leN_length], le_refl _⟩]
  simp

/-- Round trip for either direction of a logical write. -/
theorem decodeOptVal_encodeOptVal {w : Option (List Nat)}
    (hw : ∀ v, w = some v → v.length < 2 ^ 64) :
    decodeOptVal (encodeOptVal w) = some w := by
  cases w with
  | none => rfl
  | some v => exact decodeOptVal_some (hw v rfl)

/-! ### The engine scan model

`Engine::scan` and `Engine::scan_prefix` from `src/storage/engine.rs`,
over the sorted association-list store. -/

abbrev Store := AListB (List Nat)

/-- `engine.scan(from..=to)`: the entries with keys in the inclusive range,
in ascending key order. -/
def scanII (lo hi : List Nat) (st : Store) : Store :=
  aFilterK (fun k => leB lo k && leB k hi) st

/-- The exclusive upper bound `Engine::scan_prefix` computes: `*last += 1`
on the last byte of the prefix.  When the last byte is `0xFF` the `u8`
addition overflows (panics in a debug build; in release the wrapped bound
makes `BTreeMap::range` panic), so no scan is produced: modelled as `none`.
An empty prefix is left unchanged, giving the empty exclusive bound. -/
def incLastByte (p : List Nat) : Option (List Nat) :=
  match p.getLast? with
  | none => some []
  | some b => if b < 255 then some (p.dropLast ++ [b + 1]) else none

/-- `Engine::scan_prefix(p)` = `scan((Included(p), Excluded(bumped)))`. -/
def scanPfx (p : List Nat) (st : Store) : Option Store :=
  (incLastByte p).map (fun q => aFilterK (fun k => leB p k && ltB k q) st)

/-! ### The MVCC layer (`src/storage/mvcc.rs`) -/

/-- `TransactionState`: the in-memory snapshot of a transaction.  The
`HashSet<Version>` of active versions is modelled as a list; only
membership and minimum are consumed. -/
structure TransactionState where
  version : Nat
  active_versions : List Nat
deriving DecidableEq

/-- `TransactionState::is_visible`. -/
def TransactionState.is_visible (self : TransactionState) (version : Nat) :
    Bool :=
  if self.active_versions.contains version then false
  else decide (version ≤ self.version)

/-- The error kinds `write_inner`/`get`/`scan_prefix` can surface
(`Error::WriteConflict` and the `Error::Internal`/serialization family,
which also stands for the aborts described at `incLastByte`). -/
inductive MvccError : Type
  | WriteConflict : MvccError
  | Internal : MvccError
deriving DecidableEq

def u64MAX : Nat := 2 ^ 64 - 1

/-- The lower end of the conflict-check scan of
`MvccTransaction::write_inner`: the smallest active version, or
`self.version + 1` when no transaction is active. -/
def checkLo (self : TransactionState) : Nat :=
  match self.active_versions.min? with
  | some m => m
  | none => self.version + 1

/-- The conflict check of `write_inner`: examine the last entry of
`Version(key, checkLo) ..= Version(key, u64::MAX)`. -/
def writeCheck (self : TransactionState) (key : List Nat) (st : Store) :
    Except MvccError Unit :=
  match (scanII (encodeMvccKey (.Version key (checkLo self)))
      (encodeMvccKey (.Version key u64MAX)) st).getLast? with
  | none => .ok ()
  | some e =>
    match decodeMvccKey e.1 with
    | some (.Version _ version) =>
      if self.is_visible version then .ok () else .error .WriteConflict
    | _ => .error .Internal

/-- `MvccTransaction::write_inner`: run the conflict check, then append the
`TxnWrite` bookkeeping entry and the `Version` payload entry.  Both engine
writes happen after the check, so an error leaves the store untouched (the
`Except` carries no store on error). -/
def write_inner (self : TransactionState) (key : List Nat)
    (value : Option (List Nat)) (st : Store) : Except MvccError Store :=
  match writeCheck self key st with
  | .error e => .error e
  | .ok _ =>
    .ok (aSet (encodeMvccKey (.Version key self.version)) (encodeOptVal value)
      (aSet (encodeMvccKey (.TxnWrite self.version key)) [] st))

/-- `MvccTransaction::set`. -/
def mvccSet (self : TransactionState) (key value : List Nat) (st : Store) :
    Except MvccError Store :=
  write_inner self key (some value) st

/-- `MvccTransaction::delete`. -/
def mvccDelete (self : TransactionState) (key : List Nat) (st : Store) :
    Except MvccError Store :=
  write_inner self key none st

/-- The loop body of `MvccTransaction::get`: walk the scanned entries from
the newest version down, return the payload of the first visible one. -/
def getLoop (self : TransactionState) :
    Store → Except MvccError (Option (List Nat))
  | [] => .ok none
  | e :: rest =>
    match decodeMvccKey e.1 with
    | some (.Version _ version) =>
      if self.is_visible version then
        match decodeOptVal e.2 with
        | some o => .ok o
        | none => .error .Internal
      else getLoop self rest
    | _ => .error .Internal

/-- `MvccTransaction::get`: reverse scan of
`Version(key, 0) ..= Version(key, self.version)`. -/
def mvccGet (self : TransactionState) (key : List Nat) (st : Store) :
    Except MvccError (Option (List Nat)) :=
  getLoop self (scanII (encodeMvccKey (.Version key 0))
    (encodeMvccKey (.Version key self.version)) st).reverse

/-- The loop body of `MvccTransaction::scan_prefix`: fold visible versions
into an ordered map, deletions removing the key. -/
def scanLoop (self : TransactionState) :
    Store → AListB (List Nat) → Except MvccError (AListB (List Nat))
  | [], acc => .ok acc
  | e :: rest, acc =>
    match decodeMvccKey e.1 with
    | some (.Version raw_key version) =>
      if self.is_visible version then
        match decodeOptVal e.2 with
        | some (some raw_value) => scanLoop self rest (aSet raw_key raw_value acc)
        | some none => scanLoop self rest (aDelete raw_key acc)
        | none => .error .Internal
      else scanLoop self rest acc
    | _ => .error .Internal

/-- `MvccTransaction::scan_prefix`: encode `MvccKeyPrefix::Version(prefix)`,
drop the 2-byte terminator, and scan that raw byte prefix. -/
def mvccScanPfx (self : TransactionState) (p : List Nat) (st : Store) :
    Except MvccError (AListB (List Nat)) :=
  match scanPfx ((encodeMvccKeyPfx (.Version p)).take
      ((encodeMvccKeyPfx (.Version p)).length - 2)) st with
  | none => .error .Internal
  | some l => scanLoop self l []

/-- `MvccTransaction::commit`: delete this transaction's `TxnWrite` entries
and its `TxnActive` entry (the `Version` entries remain). -/
def mvccCommit (self : TransactionState) (st : Store) :
    Except MvccError Store :=
  match scanPfx (encodeMvccKeyPfx (.TxnWrite self.version)) st with
  | none => .error .Internal
  | some l =>
    .ok (aDelete (encodeMvccKey (.TxnAcvtive self.version))
      (l.foldl (fun s e => aDelete e.1 s) st))

/-- The delete-list accumulation of `MvccTransaction::rollback`: for each
`TxnWrite(_, raw_key)` found, both `Version(raw_key, self.version)` and the
`TxnWrite` key itself. -/
def collectRollback (self : TransactionState) :
    Store → Except MvccError (List (List Nat))
  | [] => .ok []
  | e :: rest =>
    match decodeMvccKey e.1 with
    | some (.TxnWrite _ raw_key) =>
      match collectRollback self rest with
      | .ok ks =>
        .ok (encodeMvccKey (.Version raw_key self.version) :: e.1 :: ks)
      | .error err => .error err
    | _ => .error .Internal

/-- `MvccTransaction::rollback`. -/
def mvccRollback (self : TransactionState) (st : Store) :
    Except MvccError Store :=
  match scanPfx (encodeMvccKeyPfx (.TxnWrite self.version)) st with
  | none => .error .Internal
  | some l =>
    match collectRollback self l with
    | .ok dels =>
      .ok (aDelete (encodeMvccKey (.TxnAcvtive self.version))
        (dels.foldl (fun s k => aDelete k s) st))
    | .error e => .error e

/-- The loop body of `MvccTransaction::scan_active`. -/
def scanActiveLoop : Store → Except MvccError (List Nat)
  | [] => .ok []
  | e :: rest =>
    match decodeMvccKey e.1 with
    | some (.TxnAcvtive version) =>
      match scanActiveLoop rest with
      | .ok vs => .ok (version :: vs)
      | .error err => .error err
    | _ => .error .Internal

/-- `MvccTransaction::scan_active`. -/
def scanActive (st : Store) : Except MvccError (List Nat) :=
  match scanPfx (encodeMvccKeyPfx .TxnAcvtive) st with
  | none => .error .Internal
  | some l => scanActiveLoop l

/-- `MvccTransaction::begin`: read and bump `NextVersion`, snapshot the
active set, then register `TxnActive(version)`. -/
def mvccBegin (st : Store) : Except MvccError (TransactionState × Store) :=
  let next : Except MvccError Nat :=
    match aGet (encodeMvccKey .NextVersion) st with
    | some value =>
      match deU64LE value with
      | some n => .ok n
      | none => .error .Internal
    | none => .ok 1
  match next with
  | .error e => .error e
  | .ok next_version =>
    let st1 := aSet (encodeMvccKey .NextVersion) (leN 8 (next_version + 1)) st
    match scanActive st1 with
    | .error e => .error e
    | .ok active_versions =>
      let st2 := aSet (encodeMvccKey (.TxnAcvtive next_version)) [] st1
      .ok (⟨next_version, active_versions⟩, st2)

/-- A transaction's whole write sequence (`set` = `some`, `delete` =
`none`), all succeeding. -/
def applyWrites (self : TransactionState) :
    List (List Nat × Option (List Nat)) → Store → Except MvccError Store
  | [], st => .ok st
  | (k, w) :: ops, st =>
    match write_inner self k w st with
    | .ok st' => applyWrites self ops st'
    | .error e => .error e

/-- `KVTransaction::commit` (`src/sql/engine/kv.rs`): the body is
`Ok(())` — it does not invoke `MvccTransaction::commit`, so the store is
untouched. -/
def kvCommit (st : Store) : Except MvccError Store := .ok st

/-- `KVTransaction::rollback` (`src/sql/engine/kv.rs`): the body is
`Ok(())` — it does not invoke `MvccTransaction::rollback`, so the store is
untouched. -/
def kvRollback (st : Store) : Except MvccError Store := .ok st

/-- `Session::execute` (`src/sql/engine/mod.rs`), after a successful parse:
begin a transaction, run the planned statement, `commit` on success and
`rollback` on error.  The statement body is abstracted as a function from
the transaction state and store to a result together with the store as
mutated so far. -/
def sessionExecute {α : Type} (body : TransactionState → Store →
    Except MvccError α × Store) (st : Store) :
    Except MvccError α × Store :=
  match mvccBegin st with
  | .error e => (.error e, st)
  | .ok (txn, st1) =>
    match body txn st1 with
    | (.ok r, st2) =>
      match kvCommit st2 with
      | .ok st3 => (.ok r, st3)
      | .error e => (.error e, st2)
    | (.error e, st2) =>
      match kvRollback st2 with
      | .ok st3 => (.error e, st3)
      | .error e2 => (.error e2, st2)

/-- Reachable stores hold only exact `MvccKey` encodings over `u8` bytes:
decoding succeeds and re-encoding reproduces the key. -/
def wfEntry (e : List Nat × List Nat) : Bool :=
  e.1.all (fun b => decide (b < 256)) &&
    match decodeMvccKey e.1 with
    | some K => encodeMvccKey K == e.1
    | none => false

def wfStore (st : Store) : Bool := st.all wfEntry

/-! ### Ordering facts about encoded keys -/

theorem ltB_cons_of_lt {a b : Nat} (h : a < b) (x y : List Nat) :
    ltB (a :: x) (b :: y) = true := by
  simp [ltB, h]

theorem leB_cons_of_gt {a b : Nat} (h : b < a) (x y : List Nat) :
    leB (a :: x) (b :: y) = false := by
  simp [leB, h, Nat.lt_asymm h]

theorem deBE_lt_of_bytes {bs : List Nat} (h : ∀ b ∈ bs, b < 256) :
    deBE bs < 256 ^ bs.length := by
  induction bs using List.reverseRecOn with
  | nil => simp [deBE]
  | append_singleton a x ih =>
    rw [deBE_append_one]
    have hx : x < 256 := h x (by simp)
    have ha : deBE a < 256 ^ a.length := ih (fun b hb => h b (by simp [hb]))
    have : (256 : Nat) ^ (a ++ [x]).length = 256 ^ a.length * 256 := by
      simp [List.length_append]
      ring
    rw [this]
    calc deBE a * 256 + x < deBE a * 256 + 256 := by omega
    _ = (deBE a + 1) * 256 := by ring
    _ ≤ 256 ^ a.length * 256 := by
      have : deBE a + 1 ≤ 256 ^ a.length := ha
      exact Nat.mul_le_mul_right _ this

/-- What well-formedness gives for each entry. -/
theorem wfEntry_spec {e : List Nat × List Nat} (h : wfEntry e = true) :
    ∃ K, decodeMvccKey e.1 = some K ∧ encodeMvccKey K = e.1 ∧
      ∀ b ∈ e.1, b < 256 := by
  unfold wfEntry at h
  rcases (Bool.and_eq_true ..) ▸ h with ⟨h1, h2⟩
  cases hd : decodeMvccKey e.1 with
  | none => rw [hd] at h2; exact Bool.noConfusion h2
  | some K =>
    rw [hd] at h2
    refine ⟨K, rfl, by simpa using h2, ?_⟩
    intro b hb
    have := List.all_eq_true.mp h1 b hb
    simpa using this

theorem wfStore_mem {st : Store} (h : wfStore st = true)
    {e : List Nat × List Nat} (he : e ∈ st) : wfEntry e = true :=
  List.all_eq_true.mp h e he

/-- Big-endian encoding inverts decoding on valid byte strings. -/
theorem beN_deBE {s : List Nat} (h : ∀ b ∈ s, b < 256) :
    beN s.length (deBE s) = s := by
  induction s using List.reverseRecOn with
  | nil => rfl
  | append_singleton a x ih =>
    have hx : x < 256 := h x (by simp)
    have ha : beN a.length (deBE a) = a := ih (fun b hb => h b (by simp [hb]))
    rw [deBE_append_one]
    have hlen : (a ++ [x]).length = a.length + 1 := by simp
    rw [hlen, beN]
    have hdiv : (deBE a * 256 + x) / 256 = deBE a := by omega
    have hmod : (deBE a * 256 + x) % 256 = x := by omega
    rw [hdiv, hmod, ha]

theorem pow_256_8 : (256 : Nat) ^ 8 = 2 ^ 64 := by norm_num

/-- `Version(key, v)` encodings are the `(3 :: esc key) ++ beN 8 v` byte
strings. -/
theorem encVersion_eq (k : List Nat) (v : Nat) :
    encodeMvccKey (.Version k v) = (3 :: esc k) ++ beN 8 v := rfl

/-- Characterization of the entries an inclusive same-key `Version` range
scan returns, on a well-formed store. -/
theorem mem_scanII_version {st : Store} {k : List Nat} {a b : Nat}
    {e : List Nat × List Nat} (hwf : wfStore st = true)
    (ha : a < 2 ^ 64) (hb : b < 2 ^ 64)
    (he : e ∈ scanII (encodeMvccKey (.Version k a))
      (encodeMvccKey (.Version k b)) st) :
    ∃ v, v < 2 ^ 64 ∧ a ≤ v ∧ v ≤ b ∧
      e.1 = encodeMvccKey (.Version k v) ∧
      decodeMvccKey e.1 = some (.Version k v) := by
  have hmem : e ∈ st := mem_of_mem_aFilterK he
  have hpred := pred_of_mem_aFilterK he
  rcases (Bool.and_eq_true ..) ▸ hpred with ⟨hlo, hhi⟩
  rw [encVersion_eq] at hlo hhi
  obtain ⟨s, hs, hsa, hsb⟩ := between_shared_pfx hlo hhi
  obtain ⟨K, hdec, henc, hbytes⟩ := wfEntry_spec (wfStore_mem hwf hmem)
  have hsbytes : ∀ byt ∈ s, byt < 256 := by
    intro byt hbyt
    exact hbytes byt (by rw [hs]; exact List.mem_append_right _ hbyt)
  have hdec2 : decodeMvccKey e.1 =
      if s.length = 8 then some (.Version k (deBE s)) else none := by
    rw [hs]
    show decodeMvccKey (3 :: (esc k ++ s)) = _
    simp only [decodeMvccKey, unesc_esc_append]
  rw [hdec] at hdec2
  by_cases hlen : s.length = 8
  · rw [if_pos hlen] at hdec2
    injection hdec2 with hK
    have hvlt : deBE s < 2 ^ 64 := by
      have := deBE_lt_of_bytes hsbytes
      rw [hlen, pow_256_8] at this
      exact this
    have hsval : s = beN 8 (deBE s) := by
      have := beN_deBE hsbytes
      rw [hlen] at this
      exact this.symm
    refine ⟨deBE s, hvlt, ?_, ?_, ?_, ?_⟩
    · have ha' : a < 256 ^ 8 := by rw [pow_256_8]; exact ha
      have hv' : deBE s < 256 ^ 8 := by rw [pow_256_8]; exact hvlt
      have : leB (beN 8 a) (beN 8 (deBE s)) = true := by
        rw [← hsval]; exact hsa
      exact (beN_leB_iff ha' hv').mp this
    · have hb' : b < 256 ^ 8 := by rw [pow_256_8]; exact hb
      have hv' : deBE s < 256 ^ 8 := by rw [pow_256_8]; exact hvlt
      have : leB (beN 8 (deBE s)) (beN 8 b) = true := by
        rw [← hsval]; exact hsb
      exact (beN_leB_iff hv' hb').mp this
    · rw [encVersion_eq, hs, ← hsval]
    · rw [hdec, hK]
  · rw [if_neg hlen] at hdec2
    exact Option.noConfusion hdec2

theorem is_visible_iff (self : TransactionState) (v : Nat) :
    self.is_visible v = true ↔
      self.active_versions.contains v = false ∧ v ≤ self.version := by
  unfold TransactionState.is_visible
  cases h : self.active_versions.contains v <;> simp [h]

theorem is_visible_false_of_conc {A : TransactionState} {v : Nat}
    (h : A.active_versions.contains v = true ∨ A.version < v) :
    A.is_visible v = false := by
  unfold TransactionState.is_visible
  rcases h with h | h
  · rw [if_pos h]
  · cases hc : A.active_versions.contains v
    · rw [if_neg (by simp [hc])]
      simp only [decide_eq_false_iff_not]
      omega
    · simp [hc]

/-- A successful `write_inner` appends exactly the `TxnWrite` bookkeeping
entry and the `Version` payload entry. -/
theorem write_inner_ok {self : TransactionState} {key : List Nat}
    {w : Option (List Nat)} {st st' : Store}
    (h : write_inner self key w st = .ok st') :
    st' = aSet (encodeMvccKey (.Version key self.version)) (encodeOptVal w)
      (aSet (encodeMvccKey (.TxnWrite self.version key)) [] st) := by
  unfold write_inner at h
  cases hc : writeCheck self key st with
  | error e => rw [hc] at h; exact Except.noConfusion h
  | ok u =>
    rw [hc] at h
    injection h with h
    exact h.symm

/-- A successful `write_inner` passed its conflict check. -/
theorem write_inner_ok_check {self : TransactionState} {key : List Nat}
    {w : Option (List Nat)} {st st' : Store}
    (h : write_inner self key w st = .ok st') :
    writeCheck self key st = .ok () := by
  unfold write_inner at h
  cases hc : writeCheck self key st with
  | error e => rw [hc] at h; exact Except.noConfusion h
  | ok u => rfl

theorem getLoop_cons (self : TransactionState) (x : List Nat × List Nat)
    (m : Store) :
    getLoop self (x :: m) =
      match decodeMvccKey x.1 with
      | some (.Version _ version) =>
        if self.is_visible version then
          match decodeOptVal x.2 with
          | some o => .ok o
          | none => .error .Internal
        else getLoop self m
      | _ => .error .Internal := rfl

/-- `getLoop` is insensitive to entries whose version is invisible. -/
theorem getLoop_skip (self : TransactionState) (a b : Store)
    (e : List Nat × List Nat) {r : List Nat} {v : Nat}
    (hdec : decodeMvccKey e.1 = some (.Version r v))
    (hvis : self.is_visible v = false) :
    getLoop self (a ++ e :: b) = getLoop self (a ++ b) := by
  induction a with
  | nil => simp [getLoop_cons, hdec, hvis]
  | cons x xs ih =>
    rw [List.cons_append, List.cons_append, getLoop_cons, getLoop_cons]
    cases hdx : decodeMvccKey x.1 with
    | none => rfl
    | some K =>
      cases K with
      | NextVersion => rfl
      | TxnAcvtive _ => rfl
      | TxnWrite _ _ => rfl
      | Version rk vk =>
        by_cases hv : self.is_visible vk = true
        · simp [hv]
        · have hv' : self.is_visible vk = false := by
            cases h : self.is_visible vk
            · rfl
            · exact absurd h hv
          simp [hv', ih]

theorem scanLoop_cons (self : TransactionState) (x : List Nat × List Nat)
    (m : Store) (acc : AListB (List Nat)) :
    scanLoop self (x :: m) acc =
      match decodeMvccKey x.1 with
      | some (.Version raw_key version) =>
        if self.is_visible version then
          match decodeOptVal x.2 with
          | some (some raw_value) => scanLoop self m (aSet raw_key raw_value acc)
          | some none => scanLoop self m (aDelete raw_key acc)
          | none => .error .Internal
        else scanLoop self m acc
      | _ => .error .Internal := rfl

/-- `scanLoop` is insensitive to entries whose version is invisible. -/
theorem scanLoop_skip (self : TransactionState) (a b : Store)
    (e : List Nat × List Nat) {r : List Nat} {v : Nat}
    (hdec : decodeMvccKey e.1 = some (.Version r v))
    (hvis : self.is_visible v = false) (acc : AListB (List Nat)) :
    scanLoop self (a ++ e :: b) acc = scanLoop self (a ++ b) acc := by
  induction a generalizing acc with
  | nil => simp [scanLoop_cons, hdec, hvis]
  | cons x xs ih =>
    rw [List.cons_append, List.cons_append, scanLoop_cons, scanLoop_cons]
    cases hdx : decodeMvccKey x.1 with
    | none => rfl
    | some K =>
      cases K with
      | NextVersion => rfl
      | TxnAcvtive _ => rfl
      | TxnWrite _ _ => rfl
      | Version rk vk =>
        by_cases hv : self.is_visible vk = true
        · cases hdv : decodeOptVal x.2 with
          | none => simp [hv, hdv]
          | some o =>
            cases o with
            | none => simp [hv, hdv, ih]
            | some rv => simp [hv, hdv, ih]
        · have hv' : self.is_visible vk = false := by
            cases h : self.is_visible vk
            · rfl
            · exact absurd h hv
          simp [hv', ih]

/-- `TxnWrite` keys (tag 2) sort strictly below `Version` keys (tag 3). -/
theorem leB_version_txnWrite (x y : List Nat) :
    leB (3 :: x) (2 :: y) = false :=
  leB_cons_of_gt (by norm_num) x y

/-- The raw byte prefix `MvccTransaction::scan_prefix` scans: the encoded
`Version` prefix with the 2-byte terminator stripped. -/
theorem mvccPfx_trunc (p : List Nat) :
    (encodeMvccKeyPfx (.Version p)).take
      ((encodeMvccKeyPfx (.Version p)).length - 2) = 3 :: escBody p := by
  show (3 :: esc p).take ((3 :: esc p).length - 2) = 3 :: escBody p
  have hlen : (3 :: esc p).length - 2 = (escBody p).length + 1 := by
    simp [esc, List.length_append]
  rw [hlen, List.take_succ_cons]
  congr 1
  show (escBody p ++ [0, 0]).take (escBody p).length = escBody p
  exact List.take_left _ _

theorem aSet_mem_self {β : Type} (k : List Nat) (v : β) (m : AListB β) :
    (k, v) ∈ aSet k v m := by
  induction m with
  | nil => simp [aSet]
  | cons e rest ih =>
    cases e with
    | mk k' v' =>
      by_cases hlt : ltB k k' = true
      · simp [aSet, hlt]
      · by_cases heq : k = k'
        · subst heq
          simp [aSet, ltB_irrefl]
        · simp only [aSet, hlt, heq, if_false]
          exact List.mem_cons_of_mem _ ih

/-- In a sorted list every entry's key is at most the last entry's key. -/
theorem sorted_getLast_max {β : Type} {l : AListB β} {e : List Nat × β}
    (hsort : SortedA l) (hlast : l.getLast? = some e) :
    ∀ x ∈ l, leB x.1 e.1 = true := by
  induction l with
  | nil => simp at hlast
  | cons y rest ih =>
    intro x hx
    cases rest with
    | nil =>
      simp at hlast
      rcases List.mem_singleton.mp hx with rfl
      rw [hlast]
      exact leB_refl _
    | cons z rest2 =>
      obtain ⟨hy, hrest⟩ := List.pairwise_cons.mp hsort
      rw [List.getLast?_cons_cons] at hlast
      rcases List.mem_cons.mp hx with rfl | hx
      · have he : e ∈ z :: rest2 := by
          have : ∀ (m : AListB β) (a : List Nat × β), m.getLast? = some a →
              a ∈ m := by
            intro m a hm
            cases m with
            | nil => simp at hm
            | cons b mrest =>
              rcases List.getLast?_eq_some_iff.mp hm with ⟨l', hl'⟩
              rw [hl']
              exact List.mem_append_right _ (List.mem_singleton.mpr rfl)
          exact this _ _ hlast
        exact leB_of_ltB (hy e he)
      · exact ih hrest hlast x hx

theorem getLast?_mem {β : Type} {l : AListB β} {e : List Nat × β}
    (h : l.getLast? = some e) : e ∈ l := by
  rcases List.getLast?_eq_some_iff.mp h with ⟨l', hl'⟩
  rw [hl']
  exact List.mem_append_right _ (List.mem_singleton.mpr rfl)

theorem contains_false_of_all_lt {l : List Nat} {x v : Nat}
    (h : ∀ a ∈ l, a < x) (hv : x ≤ v) : l.contains v = false := by
  cases hc : l.contains v
  · rfl
  · exfalso
    have hvm : v ∈ l := by
      rcases List.contains_iff_exists_mem_beq.mp hc with ⟨a, ha, hbeq⟩
      have : v = a := by simpa using hbeq
      rw [this]
      exact ha
    have := h v hvm
    omega

/-- Inserting an entry whose version is invisible does not change a
reverse-order `getLoop`. -/
theorem getLoop_reverse_aSet (self : TransactionState) {ek : List Nat}
    {r : List Nat} {vB : Nat}
    (hdec : decodeMvccKey ek = some (.Version r vB))
    (hvis : self.is_visible vB = false) (val : List Nat) (L : Store) :
    getLoop self (aSet ek val L).reverse = getLoop self L.reverse := by
  rcases aSet_decomp ek val L with ⟨xs, ys, hL, hset, _⟩ |
    ⟨xs, w, ys, hL, hset, _⟩
  · rw [hset, hL]
    rw [show (xs ++ (ek, val) :: ys).reverse =
      ys.reverse ++ (ek, val) :: xs.reverse by simp]
    rw [show (xs ++ ys).reverse = ys.reverse ++ xs.reverse by simp]
    exact getLoop_skip self _ _ _ hdec hvis
  · rw [hset, hL]
    rw [show (xs ++ (ek, val) :: ys).reverse =
      ys.reverse ++ (ek, val) :: xs.reverse by simp]
    rw [show (xs ++ (ek, w) :: ys).reverse =
      ys.reverse ++ (ek, w) :: xs.reverse by simp]
    rw [getLoop_skip self _ _ _ hdec hvis]
    rw [getLoop_skip self _ _ _ hdec hvis]

/-- Inserting an entry whose version is invisible does not change a
forward-order `scanLoop`. -/
theorem scanLoop_aSet (self : TransactionState) {ek : List Nat}
    {r : List Nat} {vB : Nat}
    (hdec : decodeMvccKey ek = some (.Version r vB))
    (hvis : self.is_visible vB = false) (val : List Nat) (L : Store)
    (acc : AListB (List Nat)) :
    scanLoop self (aSet ek val L) acc = scanLoop self L acc := by
  rcases aSet_decomp ek val L with ⟨xs, ys, hL, hset, _⟩ |
    ⟨xs, w, ys, hL, hset, _⟩
  · rw [hset, hL]
    exact scanLoop_skip self _ _ _ hdec hvis acc
  · rw [hset, hL]
    rw [scanLoop_skip self _ _ _ hdec hvis acc]
    rw [scanLoop_skip self _ _ _ hdec hvis acc]

/-- A concurrent transaction's committed-or-pending write never changes
what `get` returns to a snapshot it is invisible to. -/
theorem mvccGet_other_write (A : TransactionState) (key : List Nat)
    {B : TransactionState} {k : List Nat} {w : Option (List Nat)}
    {st st' : Store} (hsort : SortedA st)
    (hvB : B.version < 2 ^ 64)
    (hvis : A.is_visible B.version = false)
    (hw : write_inner B k w st = .ok st') :
    mvccGet A key st' = mvccGet A key st := by
  have hshape := write_inner_ok hw
  subst hshape
  unfold mvccGet scanII
  have hTWfalse :
      (fun kk => leB (encodeMvccKey (.Version key 0)) kk &&
        leB kk (encodeMvccKey (.Version key A.version)))
        (encodeMvccKey (.TxnWrite B.version k)) = false := by
    have h1 : leB (encodeMvccKey (.Version key 0))
        (encodeMvccKey (.TxnWrite B.version k)) = false :=
      leB_version_txnWrite _ _
    show (leB (encodeMvccKey (.Version key 0))
      (encodeMvccKey (.TxnWrite B.version k)) && _) = false
    rw [h1]
    rfl
  rw [show aFilterK _ (aSet (encodeMvccKey (.Version k B.version))
      (encodeOptVal w) (aSet (encodeMvccKey (.TxnWrite B.version k)) [] st)) =
    aFilterK (fun kk => leB (encodeMvccKey (.Version key 0)) kk &&
      leB kk (encodeMvccKey (.Version key A.version)))
      (aSet (encodeMvccKey (.Version k B.version)) (encodeOptVal w)
        (aSet (encodeMvccKey (.TxnWrite B.version k)) [] st)) from rfl]
  by_cases hPV : (fun kk => leB (encodeMvccKey (.Version key 0)) kk &&
      leB kk (encodeMvccKey (.Version key A.version)))
      (encodeMvccKey (.Version k B.version)) = true
  · rw [aFilterK_aSet_in _ hPV (sortedA_aSet _ _ hsort)]
    rw [aFilterK_aSet_out _ hTWfalse]
    exact getLoop_reverse_aSet A (decode_encode_version k hvB) hvis _ _
  · have hPV' : (fun kk => leB (encodeMvccKey (.Version key 0)) kk &&
        leB kk (encodeMvccKey (.Version key A.version)))
        (encodeMvccKey (.Version k B.version)) = false := by
      cases h : (fun kk => leB (encodeMvccKey (.Version key 0)) kk &&
        leB kk (encodeMvccKey (.Version key A.version)))
        (encodeMvccKey (.Version k B.version))
      · rfl
      · exact absurd h hPV
    rw [aFilterK_aSet_out _ hPV']
    rw [aFilterK_aSet_out _ hTWfalse]

/-- A concurrent transaction's write never changes what `scan_prefix`
returns to a snapshot it is invisible to. -/
theorem mvccScanPfx_other_write (A : TransactionState) (p : List Nat)
    {B : TransactionState} {k : List Nat} {w : Option (List Nat)}
    {st st' : Store} (hsort : SortedA st)
    (hvB : B.version < 2 ^ 64)
    (hvis : A.is_visible B.version = false)
    (hw : write_inner B k w st = .ok st') :
    mvccScanPfx A p st' = mvccScanPfx A p st := by
  have hshape := write_inner_ok hw
  subst hshape
  unfold mvccScanPfx
  rw [mvccPfx_trunc]
  unfold scanPfx
  cases hq : incLastByte (3 :: escBody p) with
  | none => rfl
  | some q =>
    simp only [Option.map_some']
    have hTWfalse : (fun kk => leB (3 :: escBody p) kk && ltB kk q)
        (encodeMvccKey (.TxnWrite B.version k)) = false := by
      have h1 : leB (3 :: escBody p)
          (encodeMvccKey (.TxnWrite B.version k)) = false :=
        leB_cons_of_gt (by norm_num) _ _
      show (leB (3 :: escBody p)
        (encodeMvccKey (.TxnWrite B.version k)) && _) = false
      rw [h1]
      rfl
    by_cases hPV : (fun kk => leB (3 :: escBody p) kk && ltB kk q)
        (encodeMvccKey (.Version k B.version)) = true
    · rw [aFilterK_aSet_in _ hPV (sortedA_aSet _ _ hsort)]
      rw [aFilterK_aSet_out _ hTWfalse]
      rw [scanLoop_aSet A (decode_encode_version k hvB) hvis _ _ _]
    · have hPV' : (fun kk => leB (3 :: escBody p) kk && ltB kk q)
          (encodeMvccKey (.Version k B.version)) = false := by
        cases h : (fun kk => leB (3 :: escBody p) kk && ltB kk q)
          (encodeMvccKey (.Version k B.version))
        · rfl
        · exact absurd h hPV
      rw [aFilterK_aSet_out _ hPV']
      rw [aFilterK_aSet_out _ hTWfalse]

/-- C1 — Snapshot isolation: if transaction A begins before transaction B
commits (so B's version is in A's active set or greater than A's version),
then no `get` or `scan_prefix` performed by A returns a value written by
B's `set`, and A never observes B's `delete`: B's successful write (`set`
or `delete` both go through `write_inner`) leaves every read of A
unchanged.  Equivalently, a version `v` is visible to A exactly when `v` is
not in A's active set and `v ≤ A.version`. -/
theorem snapshot_isolation
    (A B : TransactionState) (k key p : List Nat) (w : Option (List Nat))
    (st st' : Store)
    (hsort : SortedA st)
    (hvB : B.version < 2 ^ 64)
    (hconc : A.active_versions.contains B.version = true ∨
      A.version < B.version)
    (hw : write_inner B k w st = .ok st') :
    (∀ v, A.is_visible v = true ↔
      (A.active_versions.contains v = false ∧ v ≤ A.version)) ∧
    mvccGet A key st' = mvccGet A key st ∧
    mvccScanPfx A p st' = mvccScanPfx A p st := by
  have hvis := is_visible_false_of_conc hconc
  exact ⟨fun v => is_visible_iff A v,
    mvccGet_other_write A key hsort hvB hvis hw,
    mvccScanPfx_other_write A p hsort hvB hvis hw⟩

/-- C1, instantiated: transaction A (version 1) never observes the write of
the later transaction B (version 2). -/
theorem snapshot_isolation_witness :
    (∀ v, TransactionState.is_visible ⟨1, []⟩ v = true ↔
      (List.contains [] v = false ∧ v ≤ 1)) ∧
    mvccGet ⟨1, []⟩ [9]
      (aSet (encodeMvccKey (.Version [107] 2)) (encodeOptVal (some [5]))
        (aSet (encodeMvccKey (.TxnWrite 2 [107])) [] [])) =
      mvccGet ⟨1, []⟩ [9] [] ∧
    mvccScanPfx ⟨1, []⟩ []
      (aSet (encodeMvccKey (.Version [107] 2)) (encodeOptVal (some [5]))
        (aSet (encodeMvccKey (.TxnWrite 2 [107])) [] [])) =
      mvccScanPfx ⟨1, []⟩ [] [] :=
  snapshot_isolation ⟨1, []⟩ ⟨2, []⟩ [107] [9] [] (some [5]) []
    (aSet (encodeMvccKey (.Version [107] 2)) (encodeOptVal (some [5]))
      (aSet (encodeMvccKey (.TxnWrite 2 [107])) [] []))
    sortedA_nil (by norm_num) (Or.inr (by norm_num)) rfl

/-- After `write_inner` by T itself, T's `get` of that key returns exactly
the written payload (`some v` for `set`, `none` for `delete`). -/
theorem mvccGet_after_write (T : TransactionState) (key : List Nat)
    (w : Option (List Nat)) {st st' : Store} (hsort : SortedA st)
    (hself : T.active_versions.contains T.version = false)
    (hv : T.version < 2 ^ 64)
    (hwlen : ∀ v, w = some v → v.length < 2 ^ 64)
    (hw : write_inner T key w st = .ok st') :
    mvccGet T key st' = .ok w := by
  have hshape := write_inner_ok hw
  subst hshape
  unfold mvccGet scanII
  have hTWfalse :
      (fun kk => leB (encodeMvccKey (.Version key 0)) kk &&
        leB kk (encodeMvccKey (.Version key T.version)))
        (encodeMvccKey (.TxnWrite T.version key)) = false := by
    have h1 : leB (encodeMvccKey (.Version key 0))
        (encodeMvccKey (.TxnWrite T.version key)) = false :=
      leB_version_txnWrite _ _
    show (leB (encodeMvccKey (.Version key 0))
      (encodeMvccKey (.TxnWrite T.version key)) && _) = false
    rw [h1]
    rfl
  have hPV : (fun kk => leB (encodeMvccKey (.Version key 0)) kk &&
      leB kk (encodeMvccKey (.Version key T.version)))
      (encodeMvccKey (.Version key T.version)) = true := by
    show (leB (encodeMvccKey (.Version key 0))
        (encodeMvccKey (.Version key T.version)) &&
      leB (encodeMvccKey (.Version key T.version))
        (encodeMvccKey (.Version key T.version))) = true
    have h1 : leB (encodeMvccKey (.Version key 0))
        (encodeMvccKey (.Version key T.version)) = true := by
      rw [encVersion_eq, encVersion_eq, leB_append_left]
      exact (beN_leB_iff (by norm_num) (by rw [pow_256_8]; exact hv)).mpr
        (Nat.zero_le _)
    rw [h1, leB_refl]
    rfl
  rw [aFilterK_aSet_in _ hPV (sortedA_aSet _ _ hsort)]
  rw [aFilterK_aSet_out _ hTWfalse]
  have hsortL : SortedA (aSet (encodeMvccKey (.Version key T.version))
      (encodeOptVal w)
      (aFilterK (fun kk => leB (encodeMvccKey (.Version key 0)) kk &&
        leB kk (encodeMvccKey (.Version key T.version))) st)) :=
    sortedA_aSet _ _ (sortedA_filter _ hsort)
  have hmem := aSet_mem_self (encodeMvccKey (.Version key T.version))
    (encodeOptVal w)
    (aFilterK (fun kk => leB (encodeMvccKey (.Version key 0)) kk &&
      leB kk (encodeMvccKey (.Version key T.version))) st)
  have hmax : ∀ x ∈ aSet (encodeMvccKey (.Version key T.version))
      (encodeOptVal w)
      (aFilterK (fun kk => leB (encodeMvccKey (.Version key 0)) kk &&
        leB kk (encodeMvccKey (.Version key T.version))) st),
      leB x.1 (encodeMvccKey (.Version key T.version)) = true := by
    intro x hx
    rcases mem_of_mem_aSet hx with rfl | hxl
    · exact leB_refl _
    · have hp := pred_of_mem_aFilterK hxl
      rcases (Bool.and_eq_true ..) ▸ hp with ⟨_, h2⟩
      exact h2
  have hlast := getLast_of_max hsortL hmem hmax
  rcases List.getLast?_eq_some_iff.mp hlast with ⟨l', hl'⟩
  rw [hl', List.reverse_append]
  rw [show ((encodeMvccKey (.Version key T.version),
    encodeOptVal w) :: ([] : Store)).reverse ++ l'.reverse =
    (encodeMvccKey (.Version key T.version), encodeOptVal w) ::
      l'.reverse by simp]
  rw [getLoop_cons]
  simp only [decode_encode_version key hv]
  have hvisT : T.is_visible T.version = true :=
    (is_visible_iff T _).mpr ⟨hself, le_refl _⟩
  rw [if_pos hvisT]
  simp only [decodeOptVal_encodeOptVal hwlen]

/-- A write by any transaction to a different raw key does not change what
`get` returns for this key. -/
theorem mvccGet_write_other_key (self T : TransactionState) (key : List Nat)
    {k' : List Nat} {w' : Option (List Nat)} {st st' : Store}
    (hne : k' ≠ key)
    (hw : write_inner T k' w' st = .ok st') :
    mvccGet self key st' = mvccGet self key st := by
  have hshape := write_inner_ok hw
  subst hshape
  unfold mvccGet scanII
  have hTWfalse :
      (fun kk => leB (encodeMvccKey (.Version key 0)) kk &&
        leB kk (encodeMvccKey (.Version key self.version)))
        (encodeMvccKey (.TxnWrite T.version k')) = false := by
    have h1 : leB (encodeMvccKey (.Version key 0))
        (encodeMvccKey (.TxnWrite T.version k')) = false :=
      leB_version_txnWrite _ _
    show (leB (encodeMvccKey (.Version key 0))
      (encodeMvccKey (.TxnWrite T.version k')) && _) = false
    rw [h1]
    rfl
  have hPV : (fun kk => leB (encodeMvccKey (.Version key 0)) kk &&
      leB kk (encodeMvccKey (.Version key self.version)))
      (encodeMvccKey (.Version k' T.version)) = false := by
    cases hcase : (fun kk => leB (encodeMvccKey (.Version key 0)) kk &&
        leB kk (encodeMvccKey (.Version key self.version)))
        (encodeMvccKey (.Version k' T.version)) with
    | false => rfl
    | true =>
      exfalso
      rcases (Bool.and_eq_true ..) ▸ hcase with ⟨hlo, hhi⟩
      rw [encVersion_eq key 0] at hlo
      rw [encVersion_eq key self.version] at hhi
      rw [show (3 : Nat) :: esc key ++ beN 8 0 =
        (3 :: esc key) ++ beN 8 0 from rfl] at hlo
      rw [show (3 : Nat) :: esc key ++ beN 8 self.version =
        (3 :: esc key) ++ beN 8 self.version from rfl] at hhi
      obtain ⟨s, hs, _, _⟩ := between_shared_pfx hlo hhi
      rw [encVersion_eq] at hs
      have : esc k' ++ beN 8 T.version = esc key ++ s := by
        have := hs
        rw [show ((3 : Nat) :: esc key) ++ s = 3 :: (esc key ++ s) from rfl]
          at this
        rw [show (3 : Nat) :: esc k' ++ beN 8 T.version =
          3 :: (esc k' ++ beN 8 T.version) from rfl] at this
        injection this
      exact hne (esc_append_inj this).1
  rw [aFilterK_aSet_out _ hPV]
  rw [aFilterK_aSet_out _ hTWfalse]

/-- C3 — Read-your-writes: within a transaction T, `get(k)` after
`T.set(k, v)` returns `v`, and `get(k)` after `T.delete(k)` returns none;
a later write by T to a different key leaves this unchanged. -/
theorem read_your_writes
    (T : TransactionState) (key : List Nat) (v : List Nat)
    {st stS stD : Store}
    (hsort : SortedA st)
    (hself : T.active_versions.contains T.version = false)
    (hv : T.version < 2 ^ 64)
    (hvlen : v.length < 2 ^ 64)
    (hset : mvccSet T key v st = .ok stS)
    (hdel : mvccDelete T key st = .ok stD) :
    mvccGet T key stS = .ok (some v) ∧
    mvccGet T key stD = .ok none ∧
    (∀ k' w' st', k' ≠ key → write_inner T k' w' stS = .ok st' →
      mvccGet T key st' = .ok (some v)) := by
  have h1 : mvccGet T key stS = .ok (some v) :=
    mvccGet_after_write T key (some v) hsort hself hv
      (fun u hu => by injection hu with hu; rw [← hu]; exact hvlen) hset
  refine ⟨h1, ?_, ?_⟩
  · exact mvccGet_after_write T key none hsort hself hv
      (fun u hu => Option.noConfusion hu) hdel
  · intro k' w' st' hne hw'
    rw [mvccGet_write_other_key T T key hne hw']
    exact h1

/-- C3, instantiated: `set [107] [5]` then `get [107]` returns `[5]`;
`delete [107]` then `get [107]` returns none; a write to `[108]` in
between changes nothing. -/
theorem read_your_writes_witness :
    mvccGet ⟨1, []⟩ [107]
      (aSet (encodeMvccKey (.Version [107] 1)) (encodeOptVal (some [5]))
        (aSet (encodeMvccKey (.TxnWrite 1 [107])) [] [])) = .ok (some [5]) ∧
    mvccGet ⟨1, []⟩ [107]
      (aSet (encodeMvccKey (.Version [107] 1)) (encodeOptVal none)
        (aSet (encodeMvccKey (.TxnWrite 1 [107])) [] [])) = .ok none ∧
    (∀ k' w' st', k' ≠ [107] →
      write_inner ⟨1, []⟩ k' w'
        (aSet (encodeMvccKey (.Version [107] 1)) (encodeOptVal (some [5]))
          (aSet (encodeMvccKey (.TxnWrite 1 [107])) [] [])) = .ok st' →
      mvccGet ⟨1, []⟩ [107] st' = .ok (some [5])) :=
  read_your_writes ⟨1, []⟩ [107] [5] sortedA_nil (by norm_num) (by norm_num)
    (by norm_num) rfl rfl

theorem min?_nat_spec {l : List Nat} {a : Nat} (h : l.min? = some a) :
    a ∈ l ∧ ∀ b ∈ l, a ≤ b :=
  (List.min?_eq_some_iff (fun x => Nat.le_refl x) (fun x y => min_choice x y)
    (fun _ _ _ => le_min_iff)).mp h

theorem mem_of_contains {l : List Nat} {v : Nat} (h : l.contains v = true) :
    v ∈ l := by
  rcases List.contains_iff_exists_mem_beq.mp h with ⟨a, ha, hbeq⟩
  have : v = a := by simpa using hbeq
  rw [this]
  exact ha

theorem checkLo_le_of_mem {self : TransactionState} {a : Nat}
    (h : a ∈ self.active_versions) : checkLo self ≤ a := by
  unfold checkLo
  cases hm : self.active_versions.min? with
  | none =>
    exfalso
    rw [List.min?_eq_none_iff] at hm
    rw [hm] at h
    simp at h
  | some m => exact (min?_nat_spec hm).2 a h

theorem checkLo_le_succ {self : TransactionState}
    (h : ∀ a ∈ self.active_versions, a ≤ self.version) :
    checkLo self ≤ self.version + 1 := by
  unfold checkLo
  cases hm : self.active_versions.min? with
  | none => exact le_refl _
  | some m =>
    have hmem := (min?_nat_spec hm).1
    have h2 := h m hmem
    show m ≤ self.version + 1
    omega

theorem u64MAX_lt : u64MAX < 2 ^ 64 := by
  unfold u64MAX
  have : (0 : Nat) < 2 ^ 64 := by positivity
  omega

/-- Same-key `Version` encodings order exactly as their versions. -/
theorem encV_leB_iff {k : List Nat} {v1 v2 : Nat}
    (h1 : v1 < 2 ^ 64) (h2 : v2 < 2 ^ 64) :
    leB (encodeMvccKey (.Version k v1)) (encodeMvccKey (.Version k v2)) =
      true ↔ v1 ≤ v2 := by
  rw [encVersion_eq, encVersion_eq]
  rw [show (3 : Nat) :: esc k ++ beN 8 v1 =
    (3 :: esc k) ++ beN 8 v1 from rfl]
  rw [show (3 : Nat) :: esc k ++ beN 8 v2 =
    (3 :: esc k) ++ beN 8 v2 from rfl]
  rw [leB_append_left]
  exact beN_leB_iff (by rw [pow_256_8]; exact h1) (by rw [pow_256_8]; exact h2)

/-- The range filter of the conflict/get scans accepts a same-key `Version`
encoding exactly when its version lies in the bounds. -/
theorem pred_scanII_version {k : List Nat} {a b v : Nat}
    (ha : a < 2 ^ 64) (hb : b < 2 ^ 64) (hv : v < 2 ^ 64) :
    (fun kk => leB (encodeMvccKey (.Version k a)) kk &&
      leB kk (encodeMvccKey (.Version k b)))
      (encodeMvccKey (.Version k v)) = (decide (a ≤ v) && decide (v ≤ b)) := by
  show (leB (encodeMvccKey (.Version k a)) (encodeMvccKey (.Version k v)) &&
    leB (encodeMvccKey (.Version k v)) (encodeMvccKey (.Version k b))) = _
  by_cases hav : a ≤ v
  · rw [(encV_leB_iff ha hv).mpr hav]
    by_cases hvb : v ≤ b
    · rw [(encV_leB_iff hv hb).mpr hvb]
      simp [hav, hvb]
    · have : leB (encodeMvccKey (.Version k v))
          (encodeMvccKey (.Version k b)) = false := by
        cases h : leB (encodeMvccKey (.Version k v))
          (encodeMvccKey (.Version k b))
        · rfl
        · exact absurd ((encV_leB_iff hv hb).mp h) hvb
      rw [this]
      simp [hav, hvb]
  · have : leB (encodeMvccKey (.Version k a))
        (encodeMvccKey (.Version k v)) = false := by
      cases h : leB (encodeMvccKey (.Version k a))
        (encodeMvccKey (.Version k v))
      · rfl
      · exact absurd ((encV_leB_iff ha hv).mp h) hav
    rw [this]
    simp [hav]

/-- When the conflict check passes on a well-formed store, every entry in
its scan range is a same-key `Version` entry at or below the checking
transaction's own version. -/
theorem writeCheck_ok_all_le {self : TransactionState} {key : List Nat}
    {st : Store} (hwf : wfStore st = true) (hsort : SortedA st)
    (hlo : checkLo self < 2 ^ 64)
    (hok : writeCheck self key st = .ok ()) :
    ∀ e ∈ scanII (encodeMvccKey (.Version key (checkLo self)))
      (encodeMvccKey (.Version key u64MAX)) st,
      ∃ v, v < 2 ^ 64 ∧ checkLo self ≤ v ∧
        e.1 = encodeMvccKey (.Version key v) ∧ v ≤ self.version := by
  intro e he
  cases hlast : (scanII (encodeMvccKey (.Version key (checkLo self)))
      (encodeMvccKey (.Version key u64MAX)) st).getLast? with
  | none =>
    exfalso
    rw [List.getLast?_eq_none_iff] at hlast
    rw [hlast] at he
    simp at he
  | some eL =>
    obtain ⟨vL, hvL64, hloL, hhiL, hEncL, hDecL⟩ :=
      mem_scanII_version hwf hlo u64MAX_lt (getLast?_mem hlast)
    unfold writeCheck at hok
    rw [hlast] at hok
    have hok2 : (match decodeMvccKey eL.1 with
        | some (.Version _ version) =>
          if self.is_visible version then Except.ok ()
          else Except.error MvccError.WriteConflict
        | _ => Except.error MvccError.Internal) =
        (Except.ok () : Except MvccError Unit) := hok
    rw [hDecL] at hok2
    have hok3 : (if self.is_visible vL then Except.ok ()
        else Except.error MvccError.WriteConflict) =
        (Except.ok () : Except MvccError Unit) := hok2
    by_cases hvisL : self.is_visible vL = true
    · obtain ⟨v, hv64, hlov, _, hEnc, hDec⟩ :=
        mem_scanII_version hwf hlo u64MAX_lt he
      refine ⟨v, hv64, hlov, hEnc, ?_⟩
      have hle := sorted_getLast_max (sortedA_filter _ hsort) hlast e he
      rw [hEnc, hEncL] at hle
      have hvvL : v ≤ vL := (encV_leB_iff hv64 hvL64).mp hle
      have hvLs : vL ≤ self.version := ((is_visible_iff self vL).mp hvisL).2
      omega
    · exfalso
      rw [if_neg hvisL] at hok3
      exact Except.noConfusion hok3

/-- Evaluating the conflict check when the last scanned entry is known. -/
theorem writeCheck_eval {self : TransactionState} {key : List Nat}
    {st : Store} {eL : List Nat × List Nat}
    (hlast : (scanII (encodeMvccKey (.Version key (checkLo self)))
      (encodeMvccKey (.Version key u64MAX)) st).getLast? = some eL)
    {rk : List Nat} {v : Nat}
    (hdec : decodeMvccKey eL.1 = some (.Version rk v)) :
    writeCheck self key st =
      if self.is_visible v then .ok () else .error .WriteConflict := by
  unfold writeCheck
  rw [hlast]
  show (match decodeMvccKey eL.1 with
    | some (.Version _ version) =>
      if self.is_visible version then Except.ok ()
      else Except.error MvccError.WriteConflict
    | _ => Except.error MvccError.Internal) = _
  rw [hdec]

theorem encV_inj_version {k : List Nat} {v1 v2 : Nat}
    (h1 : v1 < 2 ^ 64) (h2 : v2 < 2 ^ 64)
    (h : encodeMvccKey (.Version k v1) = encodeMvccKey (.Version k v2)) :
    v1 = v2 := by
  have d1 := decode_encode_version k h1
  have d2 := decode_encode_version k h2
  rw [h, d2] at d1
  injection d1 with d1
  injection d1 with _ d1
  exact d1.symm

/-- C2 — Write-conflict detection: if A and B are concurrent (B's version
is in A's active set or above A's version) and B's `set`/`delete` of key
`k` succeeded, then A's subsequent `set`/`delete` of `k` returns
`WriteConflict`.  In the model an erroring `write_inner` returns no store:
as in the source, the check precedes both engine writes, so the failed
write leaves no `TxnWrite` and no `Version` entry behind. -/
theorem write_conflict
    (A B : TransactionState) (k : List Nat)
    (w w' : Option (List Nat)) (st st' : Store)
    (hsort : SortedA st) (hwf : wfStore st = true)
    (hA : ∀ a ∈ A.active_versions, a ≤ A.version)
    (hB : ∀ a ∈ B.active_versions, a ≤ B.version)
    (hvA : A.version + 1 < 2 ^ 64)
    (hvB : B.version + 1 < 2 ^ 64)
    (hconc : A.active_versions.contains B.version = true ∨
      A.version < B.version)
    (hw : write_inner B k w st = .ok st') :
    write_inner A k w' st' = .error .WriteConflict := by
  have hcheckB := write_inner_ok_check hw
  have hshape := write_inner_ok hw
  have hvB64 : B.version < 2 ^ 64 := by omega
  have hloA64 : checkLo A < 2 ^ 64 := by
    have := checkLo_le_succ hA
    omega
  have hloB64 : checkLo B < 2 ^ 64 := by
    have := checkLo_le_succ hB
    omega
  have hloA_le : checkLo A ≤ B.version := by
    rcases hconc with hc | hc
    · exact checkLo_le_of_mem (mem_of_contains hc)
    · have := checkLo_le_succ hA
      omega
  have hinvis : A.is_visible B.version = false := is_visible_false_of_conc hconc
  -- the scanned range over st' is the range over st plus B's entry
  have hTWfalse :
      (fun kk => leB (encodeMvccKey (.Version k (checkLo A))) kk &&
        leB kk (encodeMvccKey (.Version k u64MAX)))
        (encodeMvccKey (.TxnWrite B.version k)) = false := by
    have h1 : leB (encodeMvccKey (.Version k (checkLo A)))
        (encodeMvccKey (.TxnWrite B.version k)) = false :=
      leB_version_txnWrite _ _
    show (leB (encodeMvccKey (.Version k (checkLo A)))
      (encodeMvccKey (.TxnWrite B.version k)) && _) = false
    rw [h1]
    rfl
  have hPV : (fun kk => leB (encodeMvccKey (.Version k (checkLo A))) kk &&
      leB kk (encodeMvccKey (.Version k u64MAX)))
      (encodeMvccKey (.Version k B.version)) = true := by
    rw [pred_scanII_version hloA64 u64MAX_lt hvB64]
    have h2 : B.version ≤ u64MAX := by
      unfold u64MAX
      omega
    simp [hloA_le, h2]
  have hscan : scanII (encodeMvccKey (.Version k (checkLo A)))
      (encodeMvccKey (.Version k u64MAX)) st' =
      aSet (encodeMvccKey (.Version k B.version)) (encodeOptVal w)
        (scanII (encodeMvccKey (.Version k (checkLo A)))
          (encodeMvccKey (.Version k u64MAX)) st) := by
    rw [hshape]
    unfold scanII
    rw [aFilterK_aSet_in _ hPV (sortedA_aSet _ _ hsort)]
    rw [aFilterK_aSet_out _ hTWfalse]
  cases hlast : (scanII (encodeMvccKey (.Version k (checkLo A)))
      (encodeMvccKey (.Version k u64MAX)) st').getLast? with
  | none =>
    exfalso
    rw [List.getLast?_eq_none_iff] at hlast
    have hmem := aSet_mem_self (encodeMvccKey (.Version k B.version))
      (encodeOptVal w)
      (scanII (encodeMvccKey (.Version k (checkLo A)))
        (encodeMvccKey (.Version k u64MAX)) st)
    rw [← hscan] at hmem
    rw [hlast] at hmem
    simp at hmem
  | some eL =>
    have hmemL : eL ∈ aSet (encodeMvccKey (.Version k B.version))
        (encodeOptVal w)
        (scanII (encodeMvccKey (.Version k (checkLo A)))
          (encodeMvccKey (.Version k u64MAX)) st) := by
      rw [← hscan]
      exact getLast?_mem hlast
    -- the last entry's version is at least B's
    have hmaxB : leB (encodeMvccKey (.Version k B.version)) eL.1 = true := by
      have hsortL : SortedA (scanII (encodeMvccKey (.Version k (checkLo A)))
          (encodeMvccKey (.Version k u64MAX)) st') := by
        rw [hshape]
        exact sortedA_filter _ (sortedA_aSet _ _ (sortedA_aSet _ _ hsort))
      have := sorted_getLast_max hsortL hlast
        (encodeMvccKey (.Version k B.version), encodeOptVal w)
        (by rw [hscan]; exact aSet_mem_self _ _ _)
      exact this
    rcases mem_of_mem_aSet hmemL with heq | hmemSt
    · -- the last entry is B's own write: invisible to A
      have hdecL : decodeMvccKey eL.1 = some (.Version k B.version) := by
        rw [heq]
        exact decode_encode_version k hvB64
      unfold write_inner
      rw [writeCheck_eval hlast hdecL, if_neg (by rw [hinvis]; exact
        Bool.false_ne_true)]
    · -- the last entry was already in the store, at a version ≥ B's
      obtain ⟨vL, hvL64, hloL, _, hEncL, hDecL⟩ :=
        mem_scanII_version hwf hloA64 u64MAX_lt hmemSt
      have hvBle : B.version ≤ vL := by
        rw [hEncL] at hmaxB
        exact (encV_leB_iff hvB64 hvL64).mp hmaxB
      by_cases hveq : vL = B.version
      · subst hveq
        unfold write_inner
        rw [writeCheck_eval hlast hDecL, if_neg (by rw [hinvis]; exact
          Bool.false_ne_true)]
      · -- vL > B.version would have made B's own check fail
        exfalso
        have hvBlt : B.version < vL := by omega
        have hmemB : eL ∈ scanII (encodeMvccKey (.Version k (checkLo B)))
            (encodeMvccKey (.Version k u64MAX)) st := by
          unfold scanII aFilterK
          refine List.mem_filter.mpr ⟨mem_of_mem_aFilterK hmemSt, ?_⟩
          rw [hEncL]
          show (fun kk => leB (encodeMvccKey (.Version k (checkLo B))) kk &&
            leB kk (encodeMvccKey (.Version k u64MAX)))
            (encodeMvccKey (.Version k vL)) = true
          rw [pred_scanII_version hloB64 u64MAX_lt hvL64]
          have h1 : checkLo B ≤ vL := by
            have := checkLo_le_succ hB
            omega
          have h2 : vL ≤ u64MAX := by
            unfold u64MAX
            omega
          simp [h1, h2]
        obtain ⟨v', hv'64, _, hEnc', hle'⟩ :=
          writeCheck_ok_all_le hwf hsort hloB64 hcheckB eL hmemB
        have : v' = vL := by
          apply encV_inj_version hv'64 hvL64
          rw [← hEnc', ← hEncL]
        omega

/-- C2, instantiated: B (version 1) and A (version 2, begun while B was
active) both write key `[107]`; B's write succeeded, so A's returns
`WriteConflict`. -/
theorem write_conflict_witness :
    write_inner ⟨2, [1]⟩ [107] (some [6])
      (aSet (encodeMvccKey (.Version [107] 1)) (encodeOptVal (some [5]))
        (aSet (encodeMvccKey (.TxnWrite 1 [107])) [] [])) =
      .error .WriteConflict :=
  write_conflict ⟨2, [1]⟩ ⟨1, []⟩ [107] (some [5]) (some [6]) []
    (aSet (encodeMvccKey (.Version [107] 1)) (encodeOptVal (some [5]))
      (aSet (encodeMvccKey (.TxnWrite 1 [107])) [] []))
    sortedA_nil rfl (by decide) (by decide) (by norm_num) (by norm_num)
    (Or.inl (by decide)) rfl

/-- C9 — Overwrite within one transaction never conflicts: after
`T.set(k, w1)`, a second `set`/`delete` of `k` by T succeeds (the highest
`Version` entry the conflict check can find is T's own, which is visible to
T), and a following `get(k)` returns the later write. -/
theorem overwrite_no_conflict
    (T : TransactionState) (k : List Nat) (w1 w2 : Option (List Nat))
    (st st1 : Store)
    (hsort : SortedA st) (hwf : wfStore st = true)
    (hactive : ∀ a ∈ T.active_versions, a < T.version)
    (hv1 : T.version + 1 < 2 ^ 64)
    (hw2len : ∀ v, w2 = some v → v.length < 2 ^ 64)
    (hw1 : write_inner T k w1 st = .ok st1) :
    ∃ st2, write_inner T k w2 st1 = .ok st2 ∧ mvccGet T k st2 = .ok w2 := by
  have hv64 : T.version < 2 ^ 64 := by omega
  have hA_le : ∀ a ∈ T.active_versions, a ≤ T.version := by
    intro a ha
    exact Nat.le_of_lt (hactive a ha)
  have hlo64 : checkLo T < 2 ^ 64 := by
    have := checkLo_le_succ hA_le
    omega
  have hcheck1 := write_inner_ok_check hw1
  have hshape := write_inner_ok hw1
  have hselfc : T.active_versions.contains T.version = false :=
    contains_false_of_all_lt hactive (le_refl _)
  have hvisSelf : T.is_visible T.version = true :=
    (is_visible_iff T _).mpr ⟨hselfc, le_refl _⟩
  have hsort1 : SortedA st1 := by
    rw [hshape]
    exact sortedA_aSet _ _ (sortedA_aSet _ _ hsort)
  have hTWfalse :
      (fun kk => leB (encodeMvccKey (.Version k (checkLo T))) kk &&
        leB kk (encodeMvccKey (.Version k u64MAX)))
        (encodeMvccKey (.TxnWrite T.version k)) = false := by
    have h1 : leB (encodeMvccKey (.Version k (checkLo T)))
        (encodeMvccKey (.TxnWrite T.version k)) = false :=
      leB_version_txnWrite _ _
    show (leB (encodeMvccKey (.Version k (checkLo T)))
      (encodeMvccKey (.TxnWrite T.version k)) && _) = false
    rw [h1]
    rfl
  have hcheckOK : writeCheck T k st1 = .ok () := by
    by_cases hcase : checkLo T ≤ T.version
    · -- T's own entry is scanned and is the maximum: visible, no conflict
      have hPV : (fun kk => leB (encodeMvccKey (.Version k (checkLo T))) kk
            && leB kk (encodeMvccKey (.Version k u64MAX)))
          (encodeMvccKey (.Version k T.version)) = true := by
        rw [pred_scanII_version hlo64 u64MAX_lt hv64]
        have h2 : T.version ≤ u64MAX := by
          unfold u64MAX
          omega
        simp [hcase, h2]
      have hscan : scanII (encodeMvccKey (.Version k (checkLo T)))
          (encodeMvccKey (.Version k u64MAX)) st1 =
          aSet (encodeMvccKey (.Version k T.version)) (encodeOptVal w1)
            (scanII (encodeMvccKey (.Version k (checkLo T)))
              (encodeMvccKey (.Version k u64MAX)) st) := by
        rw [hshape]
        unfold scanII
        rw [aFilterK_aSet_in _ hPV (sortedA_aSet _ _ hsort)]
        rw [aFilterK_aSet_out _ hTWfalse]
      have hlast : (scanII (encodeMvccKey (.Version k (checkLo T)))
          (encodeMvccKey (.Version k u64MAX)) st1).getLast? =
          some (encodeMvccKey (.Version k T.version), encodeOptVal w1) := by
        rw [hscan]
        apply getLast_of_max
          (sortedA_aSet _ _ (sortedA_filter _ hsort)) (aSet_mem_self _ _ _)
        intro x hx
        rcases mem_of_mem_aSet hx with rfl | hxl
        · exact leB_refl _
        · obtain ⟨v, hv64', _, hEnc, hle⟩ :=
            writeCheck_ok_all_le hwf hsort hlo64 hcheck1 x hxl
          rw [hEnc]
          exact (encV_leB_iff hv64' hv64).mpr hle
      rw [writeCheck_eval hlast (decode_encode_version k hv64),
        if_pos hvisSelf]
    · -- empty active set: the scan range starts above T's own version and
      -- must be empty, since any entry there would have failed T's first
      -- check
      have hPV' : (fun kk => leB (encodeMvccKey (.Version k (checkLo T))) kk
            && leB kk (encodeMvccKey (.Version k u64MAX)))
          (encodeMvccKey (.Version k T.version)) = false := by
        rw [pred_scanII_version hlo64 u64MAX_lt hv64]
        simp [hcase]
      have hnil : scanII (encodeMvccKey (.Version k (checkLo T)))
          (encodeMvccKey (.Version k u64MAX)) st = [] := by
        cases hS : scanII (encodeMvccKey (.Version k (checkLo T)))
            (encodeMvccKey (.Version k u64MAX)) st with
        | nil => rfl
        | cons e rest =>
          exfalso
          have hmem : e ∈ scanII (encodeMvccKey (.Version k (checkLo T)))
              (encodeMvccKey (.Version k u64MAX)) st := by
            rw [hS]
            exact List.mem_cons_self _ _
          obtain ⟨v, _, hlov, _, hle⟩ :=
            writeCheck_ok_all_le hwf hsort hlo64 hcheck1 e hmem
          omega
      have hscan : scanII (encodeMvccKey (.Version k (checkLo T)))
          (encodeMvccKey (.Version k u64MAX)) st1 = [] := by
        rw [hshape]
        unfold scanII
        rw [aFilterK_aSet_out _ hPV']
        rw [aFilterK_aSet_out _ hTWfalse]
        exact hnil
      unfold writeCheck
      rw [hscan]
      rfl
  refine ⟨aSet (encodeMvccKey (.Version k T.version)) (encodeOptVal w2)
    (aSet (encodeMvccKey (.TxnWrite T.version k)) [] st1), ?_, ?_⟩
  · unfold write_inner
    rw [hcheckOK]
  · apply mvccGet_after_write T k w2 hsort1 hselfc hv64 hw2len
    unfold write_inner
    rw [hcheckOK]

/-- C9, instantiated: T (version 1) sets `[107]` twice; the second set
succeeds and `get` returns the second value. -/
theorem overwrite_no_conflict_witness :
    ∃ st2, write_inner ⟨1, []⟩ [107] (some [50])
      (aSet (encodeMvccKey (.Version [107] 1)) (encodeOptVal (some [49]))
        (aSet (encodeMvccKey (.TxnWrite 1 [107])) [] [])) = .ok st2 ∧
      mvccGet ⟨1, []⟩ [107] st2 = .ok (some [50]) :=
  overwrite_no_conflict ⟨1, []⟩ [107] (some [49]) (some [50]) []
    (aSet (encodeMvccKey (.Version [107] 1)) (encodeOptVal (some [49]))
      (aSet (encodeMvccKey (.TxnWrite 1 [107])) [] []))
    sortedA_nil rfl (by decide) (by norm_num)
    (fun v hv => by injection hv with hv; rw [← hv]; norm_num) rfl

theorem leB_cons_same (x : Nat) (a b : List Nat) :
    leB (x :: a) (x :: b) = leB a b := by
  simp [leB]

theorem ltB_cons_same (x : Nat) (a b : List Nat) :
    ltB (x :: a) (x :: b) = ltB a b := by
  simp [ltB]

theorem ltB_cons_of_gt {a b : Nat} (h : b < a) (x y : List Nat) :
    ltB (a :: x) (b :: y) = false := by
  simp [ltB, h, Nat.lt_asymm h]

theorem leB_append_eqlen {a b : List Nat} (s t : List Nat)
    (h : a.length = b.length) :
    leB (a ++ s) (b ++ t) = if a = b then leB s t else ltB a b := by
  induction a generalizing b with
  | nil =>
    cases b with
    | nil => simp
    | cons y ys => simp at h
  | cons x xs ih =>
    cases b with
    | nil => simp at h
    | cons y ys =>
      simp only [List.length_cons, Nat.succ_inj] at h
      by_cases hxy : x < y
      · have hne : (x :: xs) ≠ (y :: ys) := by
          intro hcontra
          injection hcontra with hh _
          omega
        simp [leB, ltB, hxy, hne]
      · by_cases hyx : y < x
        · have hne : (x :: xs) ≠ (y :: ys) := by
            intro hcontra
            injection hcontra with hh _
            omega
          simp [leB, ltB, hxy, hyx, hne]
        · have hxe : x = y := by omega
          subst hxe
          rw [show (x :: xs) ++ s = x :: (xs ++ s) from rfl,
              show (x :: ys) ++ t = x :: (ys ++ t) from rfl]
          rw [leB_cons_same, ih h]
          by_cases he : xs = ys
          · simp [he]
          · have hne : (x :: xs) ≠ (x :: ys) := by
              intro hcontra
              injection hcontra with _ h2
              exact he h2
            rw [if_neg he, if_neg hne, ltB_cons_same]

theorem mem_escBody_lt {k : List Nat} (hk : ∀ x ∈ k, x < 256) :
    ∀ b ∈ escBody k, b < 256 := by
  induction k with
  | nil => simp [escBody]
  | cons x rest ih =>
    intro b hb
    cases x with
    | zero =>
      simp only [escBody] at hb
      rcases List.mem_cons.mp hb with rfl | hb
      · norm_num
      · rcases List.mem_cons.mp hb with rfl | hb
        · norm_num
        · exact ih (fun y hy => hk y (List.mem_cons_of_mem _ hy)) b hb
    | succ m =>
      simp only [escBody] at hb
      rcases List.mem_cons.mp hb with rfl | hb
      · exact hk _ (List.mem_cons_self _ _)
      · exact ih (fun y hy => hk y (List.mem_cons_of_mem _ hy)) b hb

theorem mem_esc_lt {k : List Nat} (hk : ∀ x ∈ k, x < 256) :
    ∀ b ∈ esc k, b < 256 := by
  intro b hb
  rcases List.mem_append.mp hb with h | h
  · exact mem_escBody_lt hk b h
  · rcases List.mem_cons.mp h with rfl | h
    · norm_num
    · rcases List.mem_singleton.mp h with rfl
      norm_num

theorem mem_encV_lt {k : List Nat} (hk : ∀ x ∈ k, x < 256) (v : Nat) :
    ∀ b ∈ encodeMvccKey (.Version k v), b < 256 := by
  intro b hb
  rw [encVersion_eq] at hb
  rcases List.mem_append.mp hb with h | h
  · rcases List.mem_cons.mp h with rfl | h
    · norm_num
    · exact mem_esc_lt hk b h
  · exact mem_beN_lt 8 v b h

theorem mem_encTW_lt {k : List Nat} (hk : ∀ x ∈ k, x < 256) (v : Nat) :
    ∀ b ∈ encodeMvccKey (.TxnWrite v k), b < 256 := by
  intro b hb
  have hb' : b ∈ 2 :: (beN 8 v ++ esc k) := hb
  rcases List.mem_cons.mp hb' with rfl | h
  · norm_num
  · rcases List.mem_append.mp h with h | h
    · exact mem_beN_lt 8 v b h
    · exact mem_esc_lt hk b h

theorem wfStore_iff {st : Store} :
    wfStore st = true ↔ ∀ e ∈ st, wfEntry e = true := by
  unfold wfStore
  exact List.all_eq_true

theorem decode_encTW_raw (v : Nat) (kk : List Nat) :
    decodeMvccKey (encodeMvccKey (.TxnWrite v kk)) =
      some (.TxnWrite (deBE (beN 8 v)) kk) := by
  have hlen : (beN 8 v ++ esc kk).length = 8 + (esc kk).length := by
    simp [beN_length]
  have hdrop : (beN 8 v ++ esc kk).drop 8 = esc kk := by
    rw [List.drop_append_of_le_length (by simp [beN_length])]
    simp [beN_length]
  have htake : (beN 8 v ++ esc kk).take 8 = beN 8 v := by
    rw [List.take_append_of_le_length (by simp [beN_length])]
    simp [beN_length]
  have hesc : unesc (esc kk) = some (kk, []) := by
    have := unesc_esc_append kk []
    simpa using this
  simp [encodeMvccKey, decodeMvccKey, hlen, hdrop, htake, hesc]

theorem wf_txnWrite_bound {e : List Nat × List Nat} (hwfe : wfEntry e = true)
    {v' : Nat} {kk : List Nat}
    (hdec : decodeMvccKey e.1 = some (.TxnWrite v' kk)) : v' < 2 ^ 64 := by
  obtain ⟨K, hd2, henc, _⟩ := wfEntry_spec hwfe
  rw [hdec] at hd2
  injection hd2 with hK
  subst hK
  have hraw := decode_encTW_raw v' kk
  rw [henc, hdec] at hraw
  injection hraw with hraw
  injection hraw with h1 _
  have hb : deBE (beN 8 v') < 256 ^ (beN 8 v').length :=
    deBE_lt_of_bytes (mem_beN_lt 8 v')
  rw [beN_length, pow_256_8] at hb
  rw [h1]
  exact hb

theorem aGet_of_mem {β : Type} {s : AListB β} (hs : SortedA s)
    {k : List Nat} {val : β} (h : (k, val) ∈ s) : aGet k s = some val := by
  induction s with
  | nil => simp at h
  | cons e rest ih =>
    obtain ⟨he, hrest⟩ := List.pairwise_cons.mp hs
    cases e with
    | mk k' v' =>
      rcases List.mem_cons.mp h with heq | h2
      · injection heq with h1 h3
        subst h1; subst h3
        simp [aGet]
      · by_cases hk : k = k'
        · exfalso
          subst hk
          have := he (k, val) h2
          rw [ltB_irrefl] at this
          exact Bool.noConfusion this
        · simp only [aGet, hk, if_false]
          exact ih hrest h2

theorem mem_aSet_of_mem_ne {β : Type} {m : AListB β} {e : List Nat × β}
    (he : e ∈ m) {k : List Nat} (v : β) (hne : e.1 ≠ k) :
    e ∈ aSet k v m := by
  induction m with
  | nil => simp at he
  | cons x rest ih =>
    cases x with
    | mk k' v' =>
      by_cases hlt : ltB k k' = true
      · simp only [aSet, hlt, if_true]
        exact List.mem_cons_of_mem _ he
      · by_cases heq : k = k'
        · subst heq
          rw [show aSet k v ((k, v') :: rest) = (k, v) :: rest by
            simp [aSet, ltB_irrefl]]
          rcases List.mem_cons.mp he with rfl | he
          · exact absurd rfl hne
          · exact List.mem_cons_of_mem _ he
        · rw [show aSet k v ((k', v') :: rest) = (k', v') :: aSet k v rest by
            simp [aSet, hlt, heq]]
          rcases List.mem_cons.mp he with rfl | he
          · exact List.mem_cons_self _ _
          · exact List.mem_cons_of_mem _ (ih he)

theorem sortedA_foldl_aDelete {β : Type} (dels : List (List Nat))
    {s : AListB β} (hs : SortedA s) :
    SortedA (dels.foldl (fun acc kk => aDelete kk acc) s) := by
  induction dels generalizing s with
  | nil => exact hs
  | cons d ds ih => exact ih (sortedA_aDelete d hs)

theorem mem_of_mem_foldl_aDelete {β : Type} {dels : List (List Nat)}
    {s : AListB β} {e : List Nat × β}
    (h : e ∈ dels.foldl (fun acc kk => aDelete kk acc) s) : e ∈ s := by
  induction dels generalizing s with
  | nil => exact h
  | cons d ds ih => exact mem_of_mem_aDelete (ih h)

theorem aGet_foldl_aDelete_pres {β : Type} {dels : List (List Nat)}
    {k : List Nat} (hk : k ∉ dels) (s : AListB β) :
    aGet k (dels.foldl (fun acc kk => aDelete kk acc) s) = aGet k s := by
  induction dels generalizing s with
  | nil => rfl
  | cons d ds ih =>
    have hkd : k ≠ d := fun h => hk (h ▸ List.mem_cons_self _ _)
    have hkds : k ∉ ds := fun h => hk (List.mem_cons_of_mem _ h)
    rw [show (d :: ds).foldl (fun acc kk => aDelete kk acc) s =
      ds.foldl (fun acc kk => aDelete kk acc) (aDelete d s) from rfl]
    rw [ih hkds, aGet_aDelete_ne hkd]

theorem aGet_foldl_aDelete_none {β : Type} {dels : List (List Nat)}
    {k : List Nat} (hk : k ∈ dels) {s : AListB β} (hs : SortedA s) :
    aGet k (dels.foldl (fun acc kk => aDelete kk acc) s) = none := by
  induction dels generalizing s with
  | nil => simp at hk
  | cons d ds ih =>
    rw [show (d :: ds).foldl (fun acc kk => aDelete kk acc) s =
      ds.foldl (fun acc kk => aDelete kk acc) (aDelete d s) from rfl]
    by_cases hkds : k ∈ ds
    · exact ih hkds (sortedA_aDelete d hs)
    · rcases List.mem_cons.mp hk with rfl | hk2
      · rw [aGet_foldl_aDelete_pres hkds]
        exact aGet_aDelete_self k hs
      · exact absurd hk2 hkds

theorem wfStore_of_mem_subset {st st' : Store}
    (hwf : wfStore st = true)
    (hsub : ∀ e ∈ st', e ∈ st) : wfStore st' = true :=
  wfStore_iff.mpr (fun e he => wfStore_mem hwf (hsub e he))

theorem wfEntry_encV {kk : List Nat} {v : Nat} (val : List Nat)
    (hk : ∀ x ∈ kk, x < 256) (hv : v < 2 ^ 64) :
    wfEntry (encodeMvccKey (.Version kk v), val) = true := by
  unfold wfEntry
  rw [Bool.and_eq_true]
  constructor
  · exact List.all_eq_true.mpr
      (fun b hb => decide_eq_true (mem_encV_lt hk v b hb))
  · show (match decodeMvccKey (encodeMvccKey (.Version kk v)) with
      | some K => encodeMvccKey K == encodeMvccKey (.Version kk v)
      | none => false) = true
    rw [decode_encode_version kk hv]
    simp

theorem wfEntry_encTW {kk : List Nat} {v : Nat} (val : List Nat)
    (hk : ∀ x ∈ kk, x < 256) (hv : v < 2 ^ 64) :
    wfEntry (encodeMvccKey (.TxnWrite v kk), val) = true := by
  unfold wfEntry
  rw [Bool.and_eq_true]
  constructor
  · exact List.all_eq_true.mpr
      (fun b hb => decide_eq_true (mem_encTW_lt hk v b hb))
  · show (match decodeMvccKey (encodeMvccKey (.TxnWrite v kk)) with
      | some K => encodeMvccKey K == encodeMvccKey (.TxnWrite v kk)
      | none => false) = true
    rw [decode_encode_txnWrite kk hv]
    simp

theorem beN8_split (v : Nat) : beN 8 v = beN 7 (v / 256) ++ [v % 256] := rfl

theorem ltB_nil_right (x : List Nat) : ltB x [] = false := by
  cases x <;> rfl

/-- Bumping the last byte of the encoded `TxnWrite(v)` prefix yields the
encoded `TxnWrite(v+1)` prefix — provided the low byte of `v` is not
`0xFF`, in which case the `u8` addition overflows and no bound exists. -/
theorem incLast_txnWritePfx {v : Nat} (hmod : v % 256 ≠ 255) :
    incLastByte (2 :: beN 8 v) = some (2 :: beN 8 (v + 1)) := by
  have hsplit : (2 : Nat) :: beN 8 v = (2 :: beN 7 (v / 256)) ++ [v % 256] := by
    rw [beN8_split]
    rfl
  unfold incLastByte
  rw [hsplit, List.getLast?_concat]
  have hlt : v % 256 < 255 := by
    have := Nat.mod_lt v (show 0 < 256 by norm_num)
    omega
  show (if v % 256 < 255 then
      some (((2 :: beN 7 (v / 256)) ++ [v % 256]).dropLast ++ [v % 256 + 1])
    else none) = some (2 :: beN 8 (v + 1))
  rw [if_pos hlt, List.dropLast_concat]
  congr 1
  rw [show (2 :: beN 7 (v / 256)) ++ [v % 256 + 1] =
    2 :: (beN 7 (v / 256) ++ [v % 256 + 1]) from rfl]
  congr 1
  rw [beN8_split (v + 1)]
  have h1 : (v + 1) / 256 = v / 256 := by omega
  have h2 : (v + 1) % 256 = v % 256 + 1 := by omega
  rw [h1, h2]

/-- The engine-level scan `rollback`/`commit` perform, when it aborts
nowhere: all entries between the `TxnWrite(v)` and `TxnWrite(v+1)`
prefixes. -/
theorem rollback_scan_eq {v : Nat} (hmod : v % 256 ≠ 255) (st : Store) :
    scanPfx (encodeMvccKeyPfx (.TxnWrite v)) st =
      some (aFilterK (fun kk => leB (2 :: beN 8 v) kk &&
        ltB kk (2 :: beN 8 (v + 1))) st) := by
  show scanPfx (2 :: beN 8 v) st = _
  unfold scanPfx
  rw [incLast_txnWritePfx hmod]
  rfl

theorem encV_ne_encTW (a : List Nat) (b c : Nat) (d : List Nat) :
    encodeMvccKey (.Version a b) ≠ encodeMvccKey (.TxnWrite c d) := by
  intro h
  have h2 : (3 : Nat) :: (esc a ++ beN 8 b) = 2 :: (beN 8 c ++ esc d) := h
  injection h2 with h3 _
  exact absurd h3 (by norm_num)

theorem encV_inj {kk kk' : List Nat} {v v' : Nat}
    (h : encodeMvccKey (.Version kk v) = encodeMvccKey (.Version kk' v')) :
    kk = kk' ∧ beN 8 v = beN 8 v' := by
  have h2 : (3 : Nat) :: (esc kk ++ beN 8 v) =
    3 :: (esc kk' ++ beN 8 v') := h
  injection h2 with _ h3
  exact esc_append_inj h3

theorem encTW_inj {kk kk' : List Nat} {v v' : Nat}
    (h : encodeMvccKey (.TxnWrite v kk) = encodeMvccKey (.TxnWrite v' kk')) :
    beN 8 v = beN 8 v' ∧ kk = kk' := by
  have h2 : (2 : Nat) :: (beN 8 v ++ esc kk) =
    2 :: (beN 8 v' ++ esc kk') := h
  injection h2 with _ h3
  have hbe : beN 8 v = beN 8 v' := by
    have e1 := congrArg (List.take 8) h3
    rw [List.take_append_of_le_length (by simp [beN_length]),
        List.take_append_of_le_length (by simp [beN_length])] at e1
    simpa [beN_length] using e1
  refine ⟨hbe, ?_⟩
  rw [hbe] at h3
  have h4 := List.append_cancel_left h3
  have h5 : esc kk ++ [] = esc kk' ++ [] := by simp [h4]
  exact (esc_append_inj h5).1

/-- On a well-formed entry, the rollback scan's range filter accepts the key
exactly when it is a `TxnWrite(v, _)` encoding. -/
theorem pred_txnWritePfx_shape {v : Nat} (hv1 : v + 1 < 2 ^ 64)
    {e : List Nat × List Nat} (hwfe : wfEntry e = true)
    (hpred : (leB (2 :: beN 8 v) e.1 && ltB e.1 (2 :: beN 8 (v + 1))) = true) :
    ∃ kk, e.1 = encodeMvccKey (.TxnWrite v kk) ∧
      decodeMvccKey e.1 = some (.TxnWrite v kk) := by
  obtain ⟨K, hdec, henc, _⟩ := wfEntry_spec hwfe
  rcases (Bool.and_eq_true ..) ▸ hpred with ⟨hlo, hhi⟩
  cases K with
  | NextVersion =>
    exfalso
    rw [← henc] at hlo
    have : leB (2 :: beN 8 v) (encodeMvccKey .NextVersion) = false := by
      show leB (2 :: beN 8 v) (0 :: []) = false
      exact leB_cons_of_gt (by norm_num) _ _
    rw [this] at hlo
    exact Bool.noConfusion hlo
  | TxnAcvtive w =>
    exfalso
    rw [← henc] at hlo
    have : leB (2 :: beN 8 v) (encodeMvccKey (.TxnAcvtive w)) = false := by
      show leB (2 :: beN 8 v) (1 :: beN 8 w) = false
      exact leB_cons_of_gt (by norm_num) _ _
    rw [this] at hlo
    exact Bool.noConfusion hlo
  | Version kk w =>
    exfalso
    rw [← henc] at hhi
    have : ltB (encodeMvccKey (.Version kk w)) (2 :: beN 8 (v + 1)) =
        false := by
      show ltB (3 :: (esc kk ++ beN 8 w)) (2 :: beN 8 (v + 1)) = false
      exact ltB_cons_of_gt (by norm_num) _ _
    rw [this] at hhi
    exact Bool.noConfusion hhi
  | TxnWrite w kk =>
    have hw64 : w < 2 ^ 64 := wf_txnWrite_bound hwfe hdec
    have hv64 : v < 2 ^ 64 := by omega
    rw [← henc] at hlo hhi
    have hlo2 : leB (beN 8 v ++ []) (beN 8 w ++ esc kk) = true := by
      have : leB (2 :: beN 8 v) (2 :: (beN 8 w ++ esc kk)) = true := hlo
      rw [leB_cons_same] at this
      simpa using this
    have hhi2 : ltB (beN 8 w ++ esc kk) (beN 8 (v + 1) ++ []) = true := by
      have : ltB (2 :: (beN 8 w ++ esc kk)) (2 :: beN 8 (v + 1)) = true := hhi
      rw [ltB_cons_same] at this
      simpa using this
    rw [leB_append_eqlen _ _ (by simp [beN_length])] at hlo2
    rw [ltB_append_eqlen _ _ (by simp [beN_length])] at hhi2
    by_cases heq : beN 8 v = beN 8 w
    · have : v = w := beN_inj (by rw [pow_256_8] ; exact hv64)
        (by rw [pow_256_8]; exact hw64) heq
      subst this
      exact ⟨kk, henc.symm, by rw [hdec]⟩
    · exfalso
      rw [if_neg heq] at hlo2
      have hvw : v < w :=
        (beN_ltB_iff (by rw [pow_256_8]; exact hv64)
          (by rw [pow_256_8]; exact hw64)).mp hlo2
      by_cases heq2 : beN 8 w = beN 8 (v + 1)
      · rw [if_pos heq2, ltB_nil_right] at hhi2
        exact Bool.noConfusion hhi2
      · rw [if_neg heq2] at hhi2
        have hw1 : w < v + 1 :=
          (beN_ltB_iff (by rw [pow_256_8]; exact hw64)
            (by rw [pow_256_8]; omega)).mp hhi2
        omega

/-- The rollback scan's filter accepts every `TxnWrite(v, _)` encoding. -/
theorem pred_txnWritePfx_self {v : Nat} (hv1 : v + 1 < 2 ^ 64)
    (kk : List Nat) :
    (leB (2 :: beN 8 v) (encodeMvccKey (.TxnWrite v kk)) &&
      ltB (encodeMvccKey (.TxnWrite v kk)) (2 :: beN 8 (v + 1))) = true := by
  have hv64 : v < 2 ^ 64 := by omega
  have h1 : leB (2 :: beN 8 v) (encodeMvccKey (.TxnWrite v kk)) = true := by
    show leB (2 :: beN 8 v) (2 :: (beN 8 v ++ esc kk)) = true
    rw [leB_cons_same]
    have := leB_append_left (beN 8 v) [] (esc kk)
    simpa using this
  have h2 : ltB (encodeMvccKey (.TxnWrite v kk)) (2 :: beN 8 (v + 1)) =
      true := by
    show ltB (2 :: (beN 8 v ++ esc kk)) (2 :: beN 8 (v + 1)) = true
    rw [ltB_cons_same]
    rw [show beN 8 (v + 1) = beN 8 (v + 1) ++ [] by simp]
    rw [ltB_append_eqlen _ _ (by simp [beN_length])]
    have hne : beN 8 v ≠ beN 8 (v + 1) := by
      intro h
      have := beN_inj (by rw [pow_256_8]; exact hv64)
        (by rw [pow_256_8]; omega) h
      omega
    rw [if_neg hne]
    exact (beN_ltB_iff (by rw [pow_256_8]; exact hv64)
      (by rw [pow_256_8]; omega)).mpr (by omega)
  rw [h1, h2]
  rfl

/-- What a transaction's write sequence does to the store: it stays sorted
and well-formed, every entry is either pre-existing or one of the
transaction's own `Version`/`TxnWrite` entries, `TxnWrite` entries persist,
and every `Version` entry of the transaction has its `TxnWrite` mate. -/
theorem applyWrites_inv (T : TransactionState)
    (ops : List (List Nat × Option (List Nat))) {st s1 : Store}
    (hv : T.version < 2 ^ 64)
    (hkeys : ∀ op ∈ ops, ∀ b ∈ op.1, b < 256)
    (hsort : SortedA st) (hwf : wfStore st = true)
    (hops : applyWrites T ops st = .ok s1) :
    SortedA s1 ∧ wfStore s1 = true ∧
    (∀ e ∈ s1, e ∈ st ∨ (∃ kk, e.1 = encodeMvccKey (.Version kk T.version)) ∨
      (∃ kk, e.1 = encodeMvccKey (.TxnWrite T.version kk))) ∧
    (∀ kk, (encodeMvccKey (.TxnWrite T.version kk), ([] : List Nat)) ∈ st →
      (encodeMvccKey (.TxnWrite T.version kk), ([] : List Nat)) ∈ s1) ∧
    (∀ kk val, (encodeMvccKey (.Version kk T.version), val) ∈ s1 →
      (encodeMvccKey (.Version kk T.version), val) ∈ st ∨
      (encodeMvccKey (.TxnWrite T.version kk), ([] : List Nat)) ∈ s1) := by
  induction ops generalizing st with
  | nil =>
    have h : st = s1 := by injection hops
    subst h
    exact ⟨hsort, hwf, fun e he => Or.inl he, fun kk h => h,
      fun kk val h => Or.inl h⟩
  | cons op ops ih =>
    obtain ⟨k, w⟩ := op
    have hops2 : (match write_inner T k w st with
      | .ok st' => applyWrites T ops st'
      | .error e => .error e) = .ok s1 := hops
    cases hwi : write_inner T k w st with
    | error e =>
      rw [hwi] at hops2
      exact Except.noConfusion hops2
    | ok stm =>
      rw [hwi] at hops2
      have hkb : ∀ b ∈ k, b < 256 := hkeys (k, w) (List.mem_cons_self _ _)
      have hshape := write_inner_ok hwi
      have hsortm : SortedA stm := by
        rw [hshape]
        exact sortedA_aSet _ _ (sortedA_aSet _ _ hsort)
      have hwfm : wfStore stm = true := by
        rw [hshape, wfStore_iff]
        intro e he
        rcases mem_of_mem_aSet he with rfl | he2
        · exact wfEntry_encV _ hkb hv
        · rcases mem_of_mem_aSet he2 with rfl | he3
          · exact wfEntry_encTW _ hkb hv
          · exact wfStore_mem hwf he3
      obtain ⟨hs, hw2, horig, htw, hpair⟩ :=
        ih (fun o ho => hkeys o (List.mem_cons_of_mem _ ho)) hsortm hwfm hops2
      refine ⟨hs, hw2, ?_, ?_, ?_⟩
      · intro e he
        rcases horig e he with hm | h | h
        · rw [hshape] at hm
          rcases mem_of_mem_aSet hm with rfl | hm2
          · exact Or.inr (Or.inl ⟨k, rfl⟩)
          · rcases mem_of_mem_aSet hm2 with rfl | hm3
            · exact Or.inr (Or.inr ⟨k, rfl⟩)
            · exact Or.inl hm3
        · exact Or.inr (Or.inl h)
        · exact Or.inr (Or.inr h)
      · intro kk hmem
        apply htw
        rw [hshape]
        by_cases hkk : kk = k
        · subst hkk
          exact mem_aSet_of_mem_ne (aSet_mem_self _ _ _) _
            (fun hcontra => encV_ne_encTW _ _ _ _ hcontra.symm)
        · refine mem_aSet_of_mem_ne ?_ _
            (fun hcontra => encV_ne_encTW _ _ _ _ hcontra.symm)
          refine mem_aSet_of_mem_ne hmem _ ?_
          intro hcontra
          exact hkk (encTW_inj hcontra).2
      · intro kk val hmem
        rcases hpair kk val hmem with hm | h
        · rw [hshape] at hm
          rcases mem_of_mem_aSet hm with heq | hm2
          · have hkkk : kk = k := by
              have h1 := congrArg Prod.fst heq
              simp only at h1
              exact (encV_inj h1).1
            subst hkkk
            right
            apply htw
            rw [hshape]
            exact mem_aSet_of_mem_ne (aSet_mem_self _ _ _) _
              (fun hcontra => encV_ne_encTW _ _ _ _ hcontra.symm)
          · rcases mem_of_mem_aSet hm2 with heq2 | hm3
            · exfalso
              have h1 := congrArg Prod.fst heq2
              simp only at h1
              exact encV_ne_encTW _ _ _ _ h1
            · exact Or.inl hm3
        · exact Or.inr h

/-- `collectRollback` on a scan whose every entry is a `TxnWrite` entry of
this transaction: it succeeds, and the delete list covers both the
`TxnWrite` keys themselves and the paired `Version` keys. -/
theorem collectRollback_spec (T : TransactionState) (l : Store)
    (hlshape : ∀ e ∈ l, ∃ kk, decodeMvccKey e.1 =
      some (.TxnWrite T.version kk)) :
    ∃ dels, collectRollback T l = .ok dels ∧
      (∀ e ∈ l, e.1 ∈ dels) ∧
      (∀ e ∈ l, ∀ kk, decodeMvccKey e.1 = some (.TxnWrite T.version kk) →
        encodeMvccKey (.Version kk T.version) ∈ dels) := by
  induction l with
  | nil => exact ⟨[], rfl, by simp, by simp⟩
  | cons e rest ih =>
    obtain ⟨kk, hdec⟩ := hlshape e (List.mem_cons_self _ _)
    obtain ⟨dels, hok, h1, h2⟩ :=
      ih (fun x hx => hlshape x (List.mem_cons_of_mem _ hx))
    refine ⟨encodeMvccKey (.Version kk T.version) :: e.1 :: dels, ?_, ?_, ?_⟩
    · show collectRollback T (e :: rest) = _
      unfold collectRollback
      rw [hdec]
      show (match collectRollback T rest with
        | .ok ks => Except.ok
            (encodeMvccKey (.Version kk T.version) :: e.1 :: ks)
        | .error err => .error err) = _
      rw [hok]
    · intro x hx
      rcases List.mem_cons.mp hx with rfl | hx2
      · exact List.mem_cons_of_mem _ (List.mem_cons_self _ _)
      · exact List.mem_cons_of_mem _ (List.mem_cons_of_mem _ (h1 x hx2))
    · intro x hx kk' hdec'
      rcases List.mem_cons.mp hx with rfl | hx2
      · rw [hdec] at hdec'
        injection hdec' with hd
        injection hd with _ hd2
        rw [← hd2]
        exact List.mem_cons_self _ _
      · exact List.mem_cons_of_mem _
          (List.mem_cons_of_mem _ (h2 x hx2 kk' hdec'))

/-- Shape of any entry a same-key `Version` range scan returns, on a
well-formed store (no bounds needed). -/
theorem mem_scanII_version_shape {st : Store} {k : List Nat} {a b : Nat}
    {e : List Nat × List Nat} (hwf : wfStore st = true)
    (he : e ∈ scanII (encodeMvccKey (.Version k a))
      (encodeMvccKey (.Version k b)) st) :
    ∃ v, v < 2 ^ 64 ∧ e.1 = encodeMvccKey (.Version k v) ∧
      decodeMvccKey e.1 = some (.Version k v) := by
  have hmem : e ∈ st := mem_of_mem_aFilterK he
  have hpred := pred_of_mem_aFilterK he
  rcases (Bool.and_eq_true ..) ▸ hpred with ⟨hlo, hhi⟩
  rw [encVersion_eq] at hlo hhi
  obtain ⟨s, hs, _, _⟩ := between_shared_pfx hlo hhi
  obtain ⟨K, hdec, henc, hbytes⟩ := wfEntry_spec (wfStore_mem hwf hmem)
  have hsbytes : ∀ byt ∈ s, byt < 256 := by
    intro byt hbyt
    exact hbytes byt (by rw [hs]; exact List.mem_append_right _ hbyt)
  have hdec2 : decodeMvccKey e.1 =
      if s.length = 8 then some (.Version k (deBE s)) else none := by
    rw [hs]
    show decodeMvccKey (3 :: (esc k ++ s)) = _
    simp only [decodeMvccKey, unesc_esc_append]
  rw [hdec] at hdec2
  by_cases hlen : s.length = 8
  · rw [if_pos hlen] at hdec2
    injection hdec2 with hK
    have hvlt : deBE s < 2 ^ 64 := by
      have := deBE_lt_of_bytes hsbytes
      rw [hlen, pow_256_8] at this
      exact this
    have hsval : s = beN 8 (deBE s) := by
      have := beN_deBE hsbytes
      rw [hlen] at this
      exact this.symm
    refine ⟨deBE s, hvlt, ?_, ?_⟩
    · rw [encVersion_eq, hs, ← hsval]
    · rw [hdec, hK]
  · rw [if_neg hlen] at hdec2
    exact Option.noConfusion hdec2

/-- C4 (amended) — Rollback erasure, for every transaction whose version's
low byte is not `0xFF` (otherwise the engine's prefix-scan bound
computation overflows the `u8` and rollback aborts before erasing — see the
counterexample): after any successful sequence of `set`/`delete` calls
followed by `rollback`, the store holds no `Version(k, v)`, no
`TxnWrite(v, _)` and no `TxnActive(v)` entry for the transaction's version
`v`; consequently any transaction reads none for every key only the
rolled-back transaction had written. -/
theorem rollback_erasure
    (T : TransactionState) (ops : List (List Nat × Option (List Nat)))
    (st st1 : Store)
    (hsort : SortedA st) (hwf : wfStore st = true)
    (hmod : T.version % 256 ≠ 255)
    (hv : T.version < 2 ^ 64)
    (hkeys : ∀ op ∈ ops, ∀ b ∈ op.1, b < 256)
    (hfreshV : ∀ e ∈ st, ∀ kk, e.1 ≠ encodeMvccKey (.Version kk T.version))
    (hops : applyWrites T ops st = .ok st1) :
    ∃ st2, mvccRollback T st1 = .ok st2 ∧
      (∀ e ∈ st2, ∀ K, decodeMvccKey e.1 = some K →
        (∀ kk, K ≠ .Version kk T.version) ∧
        (∀ kk, K ≠ .TxnWrite T.version kk) ∧ K ≠ .TxnAcvtive T.version) ∧
      (∀ T2 key, (∀ e ∈ st, ∀ v', e.1 ≠ encodeMvccKey (.Version key v')) →
        mvccGet T2 key st2 = .ok none) := by
  have hv1 : T.version + 1 < 2 ^ 64 := by
    by_contra hc
    have hveq : T.version = 2 ^ 64 - 1 := by omega
    rw [hveq] at hmod
    exact hmod (by norm_num)
  obtain ⟨hs1, hw1, horig, _, hpair⟩ :=
    applyWrites_inv T ops hv hkeys hsort hwf hops
  have hscan := rollback_scan_eq hmod st1
  have hlshape : ∀ e ∈ aFilterK (fun kk => leB (2 :: beN 8 T.version) kk &&
      ltB kk (2 :: beN 8 (T.version + 1))) st1,
      ∃ kk, decodeMvccKey e.1 = some (.TxnWrite T.version kk) := by
    intro e he
    obtain ⟨kk, _, hdec⟩ := pred_txnWritePfx_shape hv1
      (wfStore_mem hw1 (mem_of_mem_aFilterK he)) (pred_of_mem_aFilterK he)
    exact ⟨kk, hdec⟩
  obtain ⟨dels, hcol, hdels1, hdels2⟩ := collectRollback_spec T _ hlshape
  have hsort2' : SortedA (dels.foldl (fun acc kk => aDelete kk acc) st1) :=
    sortedA_foldl_aDelete dels hs1
  refine ⟨aDelete (encodeMvccKey (.TxnAcvtive T.version))
    (dels.foldl (fun acc kk => aDelete kk acc) st1), ?_, ?_, ?_⟩
  · unfold mvccRollback
    rw [hscan]
    show (match collectRollback T
        (aFilterK (fun kk => leB (2 :: beN 8 T.version) kk &&
          ltB kk (2 :: beN 8 (T.version + 1))) st1) with
      | .ok ds => Except.ok
          (aDelete (encodeMvccKey (.TxnAcvtive T.version))
            (ds.foldl (fun acc kk => aDelete kk acc) st1))
      | .error e => .error e) = _
    rw [hcol]
  · intro e he K hdecK
    have he' : e ∈ dels.foldl (fun acc kk => aDelete kk acc) st1 :=
      mem_of_mem_aDelete he
    have he1 : e ∈ st1 := mem_of_mem_foldl_aDelete he'
    have hwfe := wfStore_mem hw1 he1
    obtain ⟨K', hdec', henc', _⟩ := wfEntry_spec hwfe
    rw [hdecK] at hdec'
    injection hdec' with hKK
    subst hKK
    have hgete : aGet e.1 (dels.foldl (fun acc kk => aDelete kk acc) st1) =
        some e.2 := aGet_of_mem hsort2' he'
    refine ⟨?_, ?_, ?_⟩
    · intro kk hK
      subst hK
      have hpe : (encodeMvccKey (.Version kk T.version), e.2) = e := by
        rw [henc']
      rcases hpair kk e.2 (hpe ▸ he1) with hin_st | htw_in
      · exact absurd rfl (hfreshV _ hin_st kk)
      · have hTWl : (encodeMvccKey (.TxnWrite T.version kk), ([] : List Nat))
            ∈ aFilterK (fun kk => leB (2 :: beN 8 T.version) kk &&
              ltB kk (2 :: beN 8 (T.version + 1))) st1 :=
          List.mem_filter.mpr ⟨htw_in, pred_txnWritePfx_self hv1 kk⟩
        have hdel : encodeMvccKey (.Version kk T.version) ∈ dels :=
          hdels2 _ hTWl kk (decode_encode_txnWrite kk hv)
        rw [← henc'] at hgete
        rw [aGet_foldl_aDelete_none hdel hs1] at hgete
        exact Option.noConfusion hgete
    · intro kk hK
      subst hK
      have hmemL : e ∈ aFilterK (fun kk => leB (2 :: beN 8 T.version) kk &&
          ltB kk (2 :: beN 8 (T.version + 1))) st1 := by
        refine List.mem_filter.mpr ⟨he1, ?_⟩
        show (leB (2 :: beN 8 T.version) e.1 &&
          ltB e.1 (2 :: beN 8 (T.version + 1))) = true
        rw [← henc']
        exact pred_txnWritePfx_self hv1 kk
      have hdel : e.1 ∈ dels := hdels1 _ hmemL
      rw [aGet_foldl_aDelete_none hdel hs1] at hgete
      exact Option.noConfusion hgete
    · intro hK
      subst hK
      have hgetd : aGet e.1 (aDelete (encodeMvccKey (.TxnAcvtive T.version))
          (dels.foldl (fun acc kk => aDelete kk acc) st1)) = some e.2 :=
        aGet_of_mem (sortedA_aDelete _ hsort2') he
      rw [← henc'] at hgetd
      rw [aGet_aDelete_self _ hsort2'] at hgetd
      exact Option.noConfusion hgetd
  · intro T2 key hkey
    have hwf2 : wfStore (aDelete (encodeMvccKey (.TxnAcvtive T.version))
        (dels.foldl (fun acc kk => aDelete kk acc) st1)) = true :=
      wfStore_of_mem_subset hw1 (fun e he =>
        mem_of_mem_foldl_aDelete (mem_of_mem_aDelete he))
    have hempty : scanII (encodeMvccKey (.Version key 0))
        (encodeMvccKey (.Version key T2.version))
        (aDelete (encodeMvccKey (.TxnAcvtive T.version))
          (dels.foldl (fun acc kk => aDelete kk acc) st1)) = [] := by
      cases hS : scanII (encodeMvccKey (.Version key 0))
          (encodeMvccKey (.Version key T2.version))
          (aDelete (encodeMvccKey (.TxnAcvtive T.version))
            (dels.foldl (fun acc kk => aDelete kk acc) st1)) with
      | nil => rfl
      | cons e rest =>
        exfalso
        have hmem : e ∈ scanII (encodeMvccKey (.Version key 0))
            (encodeMvccKey (.Version key T2.version))
            (aDelete (encodeMvccKey (.TxnAcvtive T.version))
              (dels.foldl (fun acc kk => aDelete kk acc) st1)) := by
          rw [hS]
          exact List.mem_cons_self _ _
        obtain ⟨v'', hv''64, hEnc'', _⟩ := mem_scanII_version_shape hwf2 hmem
        have he2 : e ∈ aDelete (encodeMvccKey (.TxnAcvtive T.version))
            (dels.foldl (fun acc kk => aDelete kk acc) st1) :=
          mem_of_mem_aFilterK hmem
        have he' : e ∈ dels.foldl (fun acc kk => aDelete kk acc) st1 :=
          mem_of_mem_aDelete he2
        have he1 : e ∈ st1 := mem_of_mem_foldl_aDelete he'
        rcases horig e he1 with hin_st | ⟨kk, hV⟩ | ⟨kk, hTW⟩
        · exact hkey e hin_st v'' hEnc''
        · -- e is one of T's own Version entries: kk = key, v'' = T.version,
          -- and it was deleted
          have hkkkey : kk = key ∧ beN 8 T.version = beN 8 v'' := by
            have heq : encodeMvccKey (.Version kk T.version) =
                encodeMvccKey (.Version key v'') := by rw [← hV, ← hEnc'']
            exact encV_inj heq
          have hveq : T.version = v'' := beN_inj
            (by rw [pow_256_8]; exact hv) (by rw [pow_256_8]; exact hv''64)
            hkkkey.2
          have hpe : (encodeMvccKey (.Version kk T.version), e.2) = e := by
            rw [← hV]
          rcases hpair kk e.2 (hpe ▸ he1) with hin_st2 | htw_in
          · exact absurd rfl (hfreshV _ hin_st2 kk)
          · have hTWl : (encodeMvccKey (.TxnWrite T.version kk),
                ([] : List Nat)) ∈
                aFilterK (fun kk => leB (2 :: beN 8 T.version) kk &&
                  ltB kk (2 :: beN 8 (T.version + 1))) st1 :=
              List.mem_filter.mpr ⟨htw_in, pred_txnWritePfx_self hv1 kk⟩
            have hdel : encodeMvccKey (.Version kk T.version) ∈ dels :=
              hdels2 _ hTWl kk (decode_encode_txnWrite kk hv)
            have hgete : aGet e.1
                (dels.foldl (fun acc kk => aDelete kk acc) st1) =
                some e.2 := aGet_of_mem hsort2' he'
            rw [hV] at hgete
            rw [aGet_foldl_aDelete_none hdel hs1] at hgete
            exact Option.noConfusion hgete
        · -- a TxnWrite key cannot be a Version key
          rw [hEnc''] at hTW
          exact encV_ne_encTW _ _ _ _ hTW
    unfold mvccGet
    rw [hempty]
    rfl

/-- C4, instantiated: T (version 1) sets `[107]`, then rolls back; the
resulting store holds no trace of version 1 and a fresh transaction reads
none for `[107]`. -/
theorem rollback_erasure_witness :
    ∃ st2, mvccRollback ⟨1, []⟩
      (aSet (encodeMvccKey (.Version [107] 1)) (encodeOptVal (some [120]))
        (aSet (encodeMvccKey (.TxnWrite 1 [107])) [] [])) = .ok st2 ∧
      (∀ e ∈ st2, ∀ K, decodeMvccKey e.1 = some K →
        (∀ kk, K ≠ .Version kk 1) ∧
        (∀ kk, K ≠ .TxnWrite 1 kk) ∧ K ≠ .TxnAcvtive 1) ∧
      (∀ T2 key, (∀ e ∈ ([] : Store), ∀ v',
          e.1 ≠ encodeMvccKey (.Version key v')) →
        mvccGet T2 key st2 = .ok none) :=
  rollback_erasure ⟨1, []⟩ [([107], some [120])] []
    (aSet (encodeMvccKey (.Version [107] 1)) (encodeOptVal (some [120]))
      (aSet (encodeMvccKey (.TxnWrite 1 [107])) [] []))
    sortedA_nil rfl (by norm_num) (by norm_num) (by decide)
    (by intro e he; simp at he) rfl

/-- C4, counterexample to the claim as stated: at version 255 the rollback
prefix scan's upper bound would need to bump a `0xFF` byte; the `u8`
addition overflows (a panic in the source, an abort in the model), so
rollback produces no store at all and the `Version([107], 255)` entry is
never erased. -/
theorem rollback_erasure_cex :
    applyWrites ⟨255, []⟩ [([107], some [1])] [] =
      .ok (aSet (encodeMvccKey (.Version [107] 255))
        (encodeOptVal (some [1]))
        (aSet (encodeMvccKey (.TxnWrite 255 [107])) [] [])) ∧
    ¬∃ st2, mvccRollback ⟨255, []⟩
      (aSet (encodeMvccKey (.Version [107] 255)) (encodeOptVal (some [1]))
        (aSet (encodeMvccKey (.TxnWrite 255 [107])) [] [])) = .ok st2 := by
  constructor
  · rfl
  · rintro ⟨st2, hcontra⟩
    have habort : mvccRollback ⟨255, []⟩
        (aSet (encodeMvccKey (.Version [107] 255)) (encodeOptVal (some [1]))
          (aSet (encodeMvccKey (.TxnWrite 255 [107])) [] [])) =
        .error .Internal := rfl
    rw [habort] at hcontra
    exact Except.noConfusion hcontra

/-- C5 — Prefix-scan exactness fails on the engine code
(`Engine::scan_prefix` in `src/storage/engine.rs`): the empty prefix is
not bumped, so the scan range is the empty `[[], [])` and no live key is
returned although the claim (and spec §4.1) demand every live key; a
prefix whose last byte is `0xFF` overflows the `u8` bump and aborts instead
of returning the matching keys.  A well-behaved prefix such as `[97]`
returns exactly the matching keys, confirming the intent. -/
theorem scanPfx_code_bug :
    scanPfx [] [([97], [1])] = some [] ∧
    scanPfx [255] [([255], [1])] = none ∧
    scanPfx [97] [([97], [1]), ([97, 98], [2]), ([98], [3])] =
      some [([97], [1]), ([97, 98], [2])] := by
  refine ⟨rfl, rfl, rfl⟩

/-- C7 — Session cleanup fails on the code: `Session::execute` does call
`commit`/`rollback` on its `KVTransaction`, but those are `Ok(())` stubs
(`src/sql/engine/kv.rs`) that never reach `MvccTransaction`'s
`commit`/`rollback`.  Executing a failing statement on an empty store
leaves the orphan `TxnActive(1)` entry behind, although
`MvccTransaction::rollback` would have removed it. -/
theorem session_cleanup_code_bug :
    (sessionExecute (α := Unit) (fun _ s => (.error .Internal, s)) []).2 =
      aSet (encodeMvccKey (.TxnAcvtive 1)) []
        (aSet (encodeMvccKey .NextVersion) (leN 8 2) []) ∧
    aGet (encodeMvccKey (.TxnAcvtive 1))
      (sessionExecute (α := Unit) (fun _ s => (.error .Internal, s)) []).2 = some [] ∧
    (∃ st2, mvccRollback ⟨1, []⟩
      (sessionExecute (α := Unit) (fun _ s => (.error .Internal, s)) []).2 = .ok st2 ∧
      aGet (encodeMvccKey (.TxnAcvtive 1)) st2 = none) := by
  refine ⟨rfl, rfl, ⟨aSet (encodeMvccKey .NextVersion) (leN 8 2) [], ?_, ?_⟩⟩
  · rfl
  · rfl

/-! ### The disk engine (`src/storage/disk.rs`)

An append-only log file modelled as the byte list it contains, plus the
in-memory keydir mapping each live key to `(value_offset, value_len)`. -/

abbrev KeyDir := AListB (Nat × Nat)

/-- `Log::write_entry`'s record framing: `key_len` (u32 big-endian),
`val_len` (i32 big-endian, `-1` i.e. `FF FF FF FF` for a tombstone), key
bytes, value bytes.  The `usize → u32`/`i32` casts keep the low 32 bits. -/
def recordBytes (k : List Nat) (v : Option (List Nat)) : List Nat :=
  beN 4 (k.length % 2 ^ 32) ++
    (match v with
     | some vv => beN 4 (vv.length % 2 ^ 32)
     | none => [255, 255, 255, 255]) ++ k ++ v.getD []

structure DiskEngine where
  keydir : KeyDir
  file : List Nat
deriving DecidableEq

/-- `Log::read_value` / `read_exact`: the `len` bytes at `off`. -/
def slice (l : List Nat) (off len : Nat) : List Nat := (l.drop off).take len

/-- `DiskEngine::set`: append the record, then point the keydir at the
value payload (`offset + total_size - val_size`, all u32/u64 casts
modelled). -/
def diskSet (key value : List Nat) (e : DiskEngine) : DiskEngine :=
  { keydir := aSet key
      (e.file.length +
          (key.length % 2 ^ 32 + value.length % 2 ^ 32 + 8) % 2 ^ 32 -
          value.length % 2 ^ 32,
        value.length % 2 ^ 32) e.keydir,
    file := e.file ++ recordBytes key (some value) }

/-- `DiskEngine::delete`: append a tombstone, drop the keydir entry. -/
def diskDelete (key : List Nat) (e : DiskEngine) : DiskEngine :=
  { keydir := aDelete key e.keydir,
    file := e.file ++ recordBytes key none }

/-- `DiskEngine::get`: keydir lookup, then read the value bytes from the
log; reading past EOF is an I/O error. -/
def diskGet (key : List Nat) (e : DiskEngine) :
    Except Unit (Option (List Nat)) :=
  match aGet key e.keydir with
  | some (offset, valSize) =>
    if offset + valSize ≤ e.file.length then
      .ok (some (slice e.file offset valSize))
    else .error ()
  | none => .ok none

/-- `Log::read_entry` at `offset`: key size (u32 BE), value size (raw u32
view of the i32 BE), key bytes; any read crossing EOF is a corruption
error. -/
def readEntry (file : List Nat) (offset : Nat) : Option (List Nat × Nat) :=
  if offset + 8 ≤ file.length then
    if offset + 8 + deBE (slice file offset 4) ≤ file.length then
      some (slice file (offset + 8) (deBE (slice file offset 4)),
        deBE (slice file (offset + 4) 4))
    else none
  else none

/-- `val_size as u64` sign-extends the `i32` whose raw u32 view this is. -/
def i32ExtU64 (raw : Nat) : Nat :=
  if raw < 2 ^ 31 then raw else raw + (2 ^ 64 - 2 ^ 32)

/-- The replay loop of `Log::build_keydir`: walk the records from offset 0,
last writer wins, tombstones remove. -/
def buildFrom (file : List Nat) (offset : Nat) (kd : KeyDir) :
    Option KeyDir :=
  if _h : file.length ≤ offset then some kd
  else
    match readEntry file offset with
    | none => none
    | some (key, valRaw) =>
      if valRaw = 2 ^ 32 - 1 then
        buildFrom file (offset + key.length + 8) (aDelete key kd)
      else
        buildFrom file (offset + key.length + i32ExtU64 valRaw + 8)
          (aSet key (offset + 8 + key.length, valRaw) kd)
termination_by file.length - offset
decreasing_by all_goals omega

/-- `Log::build_keydir`. -/
def build_keydir (file : List Nat) : Option KeyDir := buildFrom file 0 []

/-- `DiskEngine::new` (open an existing log): replay to rebuild the
keydir. -/
def diskOpen (file : List Nat) : Option DiskEngine :=
  (build_keydir file).map (fun kd => ⟨kd, file⟩)

/-- The rewrite loop of `DiskEngine::compact`: iterate the keydir in
ascending key order, copy each live value into the fresh log, record the
new value offset. -/
def compactGo (file : List Nat) :
    List (List Nat × (Nat × Nat)) → KeyDir → List Nat →
    Option (KeyDir × List Nat)
  | [], newKd, acc => some (newKd, acc)
  | (k, (off, sz)) :: rest, newKd, acc =>
    if off + sz ≤ file.length then
      compactGo file rest
        (aSet k
          (acc.length +
              (k.length % 2 ^ 32 + (slice file off sz).length % 2 ^ 32 + 8)
                % 2 ^ 32 - sz,
            sz) newKd)
        (acc ++ recordBytes k (some (slice file off sz)))
    else none

/-- `DiskEngine::compact` (the in-memory effect after the atomic rename). -/
def compactFn (e : DiskEngine) : Option DiskEngine :=
  (compactGo e.file e.keydir [] []).map (fun p => ⟨p.1, p.2⟩)

/-- `DiskEngine::new_compact` (`open_compacted`): open, then compact. -/
def new_compact (file : List Nat) : Option DiskEngine :=
  (diskOpen file).bind compactFn

/-- A workload against the engine: the `set`/`delete` calls in order. -/
inductive DiskOp : Type
  | set : List Nat → List Nat → DiskOp
  | del : List Nat → DiskOp
deriving DecidableEq

def applyDiskOps : List DiskOp → DiskEngine → DiskEngine
  | [], e => e
  | .set k v :: ops, e => applyDiskOps ops (diskSet k v e)
  | .del k :: ops, e => applyDiskOps ops (diskDelete k e)

/-- A freshly created log file: no records, empty keydir. -/
def emptyDisk : DiskEngine := ⟨[], []⟩

/-! ### Byte-slice arithmetic for the log -/

theorem slice_length {l : List Nat} {off n : Nat} (h : off + n ≤ l.length) :
    (slice l off n).length = n := by
  simp only [slice, List.length_take, List.length_drop]
  omega

theorem slice_append_left {f g : List Nat} {off n : Nat}
    (h : off + n ≤ f.length) : slice (f ++ g) off n = slice f off n := by
  have hoff : off ≤ f.length := by omega
  simp only [slice]
  rw [List.drop_append_of_le_length hoff]
  rw [List.take_append_of_le_length (by simp only [List.length_drop]; omega)]

theorem slice_append_right {f g : List Nat} {off n : Nat}
    (h : f.length ≤ off) : slice (f ++ g) off n = slice g (off - f.length) n := by
  simp only [slice]
  rw [List.drop_append_eq_append_drop, List.drop_eq_nil_of_le h,
    List.nil_append]

theorem slice_start {a b : List Nat} {n : Nat} (h : a.length = n) :
    slice (a ++ b) 0 n = a := by
  simp only [slice, List.drop_zero]
  rw [← h, List.take_left]

theorem slice_after {a b : List Nat} {off : Nat} (h : a.length = off)
    (n : Nat) : slice (a ++ b) off n = slice b 0 n := by
  simp only [slice, List.drop_zero]
  rw [← h, List.drop_left]

theorem recordBytes_length (k : List Nat) (w : Option (List Nat)) :
    (recordBytes k w).length = 8 + k.length + (w.getD []).length := by
  cases w <;> simp [recordBytes, beN_length] <;> omega

theorem recordBytes_some_assoc (k v : List Nat) :
    recordBytes k (some v) =
      beN 4 (k.length % 2 ^ 32) ++ (beN 4 (v.length % 2 ^ 32) ++ (k ++ v)) := by
  simp [recordBytes, List.append_assoc]

theorem recordBytes_none_assoc (k : List Nat) :
    recordBytes k none =
      beN 4 (k.length % 2 ^ 32) ++ ([255, 255, 255, 255] ++ k) := by
  simp [recordBytes, List.append_assoc]

theorem pow_256_4 : (256 : Nat) ^ 4 = 2 ^ 32 := by norm_num

/-- The value payload sits at byte `8 + key length` of its record. -/
theorem slice_record_value (k v : List Nat) :
    slice (recordBytes k (some v)) (8 + k.length) v.length = v := by
  have h : recordBytes k (some v) =
      (beN 4 (k.length % 2 ^ 32) ++ beN 4 (v.length % 2 ^ 32) ++ k) ++ v := by
    simp [recordBytes, List.append_assoc]
  have hlen : (beN 4 (k.length % 2 ^ 32) ++ beN 4 (v.length % 2 ^ 32) ++
      k).length = 8 + k.length := by
    simp [beN_length]
    omega
  rw [h, show 8 + k.length = (beN 4 (k.length % 2 ^ 32) ++
    beN 4 (v.length % 2 ^ 32) ++ k).length from hlen.symm]
  simp only [slice]
  rw [List.drop_left, List.take_length]

theorem slice_record_value_of_len (k v : List Nat) {n : Nat}
    (hn : v.length = n) :
    slice (recordBytes k (some v)) (8 + k.length) n = v := by
  rw [← hn]
  exact slice_record_value k v

/-! ### Parsing a record back (`Log::read_entry`) -/

theorem readEntry_bound {file : List Nat} {offset : Nat} {key : List Nat}
    {raw : Nat} (h : readEntry file offset = some (key, raw)) :
    offset + 8 ≤ file.length ∧ offset + 8 + key.length ≤ file.length := by
  unfold readEntry at h
  by_cases h1 : offset + 8 ≤ file.length
  · rw [if_pos h1] at h
    by_cases h2 : offset + 8 + deBE (slice file offset 4) ≤ file.length
    · rw [if_pos h2] at h
      simp only [Option.some.injEq, Prod.mk.injEq] at h
      obtain ⟨hk, -⟩ := h
      have hkl : key.length = deBE (slice file offset 4) := by
        rw [← hk]
        exact slice_length (by omega)
      exact ⟨h1, by omega⟩
    · rw [if_neg h2] at h
      exact absurd h (by simp)
  · rw [if_neg h1] at h
    exact absurd h (by simp)

theorem readEntry_append {file ext : List Nat} {offset : Nat}
    {key : List Nat} {raw : Nat}
    (h : readEntry file offset = some (key, raw)) :
    readEntry (file ++ ext) offset = some (key, raw) := by
  obtain ⟨h8, hk8⟩ := readEntry_bound h
  unfold readEntry at h ⊢
  rw [if_pos h8] at h
  rw [slice_append_left (show offset + 4 ≤ file.length by omega)]
  by_cases h2 : offset + 8 + deBE (slice file offset 4) ≤ file.length
  · rw [if_pos h2] at h
    rw [if_pos (show offset + 8 ≤ (file ++ ext).length by
      simp only [List.length_append]; omega)]
    rw [if_pos (show offset + 8 + deBE (slice file offset 4) ≤
      (file ++ ext).length by simp only [List.length_append]; omega)]
    rw [slice_append_left (show offset + 8 + deBE (slice file offset 4) ≤
      file.length from h2)]
    rw [slice_append_left (show offset + 4 + 4 ≤ file.length by omega)]
    exact h
  · rw [if_neg h2] at h
    exact absurd h (by simp)

theorem readEntry_boundary_set {f k v : List Nat} (hk : k.length < 2 ^ 32)
    (hv : v.length < 2 ^ 32) :
    readEntry (f ++ recordBytes k (some v)) f.length = some (k, v.length) := by
  have hkm : k.length % 2 ^ 32 = k.length := Nat.mod_eq_of_lt hk
  have hvm : v.length % 2 ^ 32 = v.length := Nat.mod_eq_of_lt hv
  have hlenR : (recordBytes k (some v)).length = 8 + k.length + v.length := by
    rw [recordBytes_length]
    rfl
  have hs0 : slice (f ++ recordBytes k (some v)) f.length 4 =
      beN 4 (k.length % 2 ^ 32) := by
    rw [slice_append_right (le_refl f.length), Nat.sub_self,
      recordBytes_some_assoc]
    exact slice_start (beN_length 4 _)
  have hde : deBE (slice (f ++ recordBytes k (some v)) f.length 4) =
      k.length := by
    rw [hs0, deBE_beN (by rw [pow_256_4]; omega), hkm]
  have hs4 : slice (f ++ recordBytes k (some v)) (f.length + 4) 4 =
      beN 4 (v.length % 2 ^ 32) := by
    rw [slice_append_right (show f.length ≤ f.length + 4 by omega),
      show f.length + 4 - f.length = 4 by omega, recordBytes_some_assoc]
    rw [slice_after (beN_length 4 _) 4]
    exact slice_start (beN_length 4 _)
  have hskey : slice (f ++ recordBytes k (some v)) (f.length + 8)
      k.length = k := by
    rw [slice_append_right (show f.length ≤ f.length + 8 by omega),
      show f.length + 8 - f.length = 8 by omega, recordBytes_some_assoc]
    rw [slice_append_right (show (beN 4 (k.length % 2 ^ 32)).length ≤ 8 by
      rw [beN_length]; omega), beN_length,
      show (8 - 4 : Nat) = 4 by omega]
    rw [slice_after (beN_length 4 _) k.length]
    exact slice_start rfl
  unfold readEntry
  rw [hs0, deBE_beN (by rw [pow_256_4]; omega), hkm]
  rw [if_pos (show f.length + 8 ≤ (f ++ recordBytes k (some v)).length by
    simp only [List.length_append, hlenR]; omega)]
  rw [if_pos (show f.length + 8 + k.length ≤
      (f ++ recordBytes k (some v)).length by
    simp only [List.length_append, hlenR]; omega)]
  rw [hskey, hs4, deBE_beN (by rw [pow_256_4]; omega), hvm]

theorem readEntry_boundary_del {f k : List Nat} (hk : k.length < 2 ^ 32) :
    readEntry (f ++ recordBytes k none) f.length = some (k, 2 ^ 32 - 1) := by
  have hkm : k.length % 2 ^ 32 = k.length := Nat.mod_eq_of_lt hk
  have hlenR : (recordBytes k none).length = 8 + k.length := by
    rw [recordBytes_length]
    rfl
  have hs0 : slice (f ++ recordBytes k none) f.length 4 =
      beN 4 (k.length % 2 ^ 32) := by
    rw [slice_append_right (le_refl f.length), Nat.sub_self,
      recordBytes_none_assoc]
    exact slice_start (beN_length 4 _)
  have hs4 : slice (f ++ recordBytes k none) (f.length + 4) 4 =
      [255, 255, 255, 255] := by
    rw [slice_append_right (show f.length ≤ f.length + 4 by omega),
      show f.length + 4 - f.length = 4 by omega, recordBytes_none_assoc]
    rw [slice_after (beN_length 4 _) 4]
    exact slice_start rfl
  have hskey : slice (f ++ recordBytes k none) (f.length + 8) k.length = k := by
    rw [slice_append_right (show f.length ≤ f.length + 8 by omega),
      show f.length + 8 - f.length = 8 by omega, recordBytes_none_assoc]
    rw [slice_append_right (show (beN 4 (k.length % 2 ^ 32)).length ≤ 8 by
      rw [beN_length]; omega), beN_length,
      show (8 - 4 : Nat) = 4 by omega]
    rw [slice_after (show ([255, 255, 255, 255] : List Nat).length = 4 from
      rfl) k.length]
    have : k = k ++ [] := by simp
    rw [show slice k 0 k.length = slice (k ++ []) 0 k.length by rw [← this]]
    exact slice_start rfl
  unfold readEntry
  rw [hs0, deBE_beN (by rw [pow_256_4]; omega), hkm]
  rw [if_pos (show f.length + 8 ≤ (f ++ recordBytes k none).length by
    simp only [List.length_append, hlenR]; omega)]
  rw [if_pos (show f.length + 8 + k.length ≤
      (f ++ recordBytes k none).length by
    simp only [List.length_append, hlenR]; omega)]
  rw [hskey, hs4]
  have : deBE [255, 255, 255, 255] = 2 ^ 32 - 1 := by decide
  rw [this]

/-! ### Replaying a well-formed log -/

/-- A replay derivation: from `offset`, `build_keydir`'s loop walks whole
records, each lying fully inside `file`, lands exactly on `file.length`,
and turns `kd` into `kd'`.  Every log the engine itself writes parses this
way. -/
inductive ParsesTo (file : List Nat) : Nat → KeyDir → KeyDir → Prop
  | done (kd : KeyDir) : ParsesTo file file.length kd kd
  | set (offset : Nat) (kd kd' : KeyDir) (key : List Nat) (raw : Nat)
      (hre : readEntry file offset = some (key, raw))
      (hraw : raw ≠ 2 ^ 32 - 1)
      (hend : offset + key.length + i32ExtU64 raw + 8 ≤ file.length)
      (hrest : ParsesTo file (offset + key.length + i32ExtU64 raw + 8)
        (aSet key (offset + 8 + key.length, raw) kd) kd') :
      ParsesTo file offset kd kd'
  | del (offset : Nat) (kd kd' : KeyDir) (key : List Nat)
      (hre : readEntry file offset = some (key, 2 ^ 32 - 1))
      (hend : offset + key.length + 8 ≤ file.length)
      (hrest : ParsesTo file (offset + key.length + 8) (aDelete key kd) kd') :
      ParsesTo file offset kd kd'

theorem buildFrom_of_parsesTo {file : List Nat} {offset : Nat}
    {kd kd' : KeyDir} (h : ParsesTo file offset kd kd') :
    buildFrom file offset kd = some kd' := by
  induction h with
  | done kd =>
    rw [buildFrom]
    simp
  | set offset kd km key raw hre hraw hend hrest ih =>
    have hlt : ¬ file.length ≤ offset := by
      have := (readEntry_bound hre).1
      omega
    rw [buildFrom, dif_neg hlt, hre]
    simp only [if_neg hraw]
    exact ih
  | del offset kd km key hre hend hrest ih =>
    have hlt : ¬ file.length ≤ offset := by
      have := (readEntry_bound hre).1
      omega
    rw [buildFrom, dif_neg hlt, hre]
    simp only [if_pos rfl]
    exact ih

theorem parsesTo_append {file ext : List Nat} {offset : Nat}
    {kd kdm kd' : KeyDir} (h : ParsesTo file offset kd kdm) :
    ParsesTo (file ++ ext) file.length kdm kd' →
      ParsesTo (file ++ ext) offset kd kd' := by
  induction h with
  | done kd => exact fun hext => hext
  | set offset kd km key raw hre hraw hend hrest ih =>
    intro hext
    exact ParsesTo.set offset kd kd' key raw (readEntry_append hre) hraw
      (by simp only [List.length_append]; omega) (ih hext)
  | del offset kd km key hre hend hrest ih =>
    intro hext
    exact ParsesTo.del offset kd kd' key (readEntry_append hre)
      (by simp only [List.length_append]; omega) (ih hext)

theorem parsesTo_record_set {f k v : List Nat} (kd : KeyDir)
    (hk : k.length < 2 ^ 32) (hv : v.length < 2 ^ 31) :
    ParsesTo (f ++ recordBytes k (some v)) f.length kd
      (aSet k (f.length + 8 + k.length, v.length) kd) := by
  have hre := readEntry_boundary_set (f := f) hk
    (show v.length < 2 ^ 32 by omega)
  have hlen : (f ++ recordBytes k (some v)).length =
      f.length + (8 + k.length + v.length) := by
    simp only [List.length_append, recordBytes_length]
    rfl
  have hext : i32ExtU64 v.length = v.length := by
    unfold i32ExtU64
    rw [if_pos hv]
  refine ParsesTo.set f.length kd _ k v.length hre (by omega) ?_ ?_
  · rw [hlen, hext]
    omega
  · rw [show f.length + k.length + i32ExtU64 v.length + 8 =
      (f ++ recordBytes k (some v)).length by rw [hlen, hext]; omega]
    exact ParsesTo.done _

theorem parsesTo_record_del {f k : List Nat} (kd : KeyDir)
    (hk : k.length < 2 ^ 32) :
    ParsesTo (f ++ recordBytes k none) f.length kd (aDelete k kd) := by
  have hlen : (f ++ recordBytes k none).length =
      f.length + (8 + k.length) := by
    simp only [List.length_append, recordBytes_length]
    rfl
  refine ParsesTo.del f.length kd _ k (readEntry_boundary_del hk) ?_ ?_
  · rw [hlen]
    omega
  · rw [show f.length + k.length + 8 = (f ++ recordBytes k none).length by
      rw [hlen]; omega]
    exact ParsesTo.done _

/-- The replay invariant: the engine's keydir is exactly what replaying its
log from scratch rebuilds. -/
def DiskWf (e : DiskEngine) : Prop := ParsesTo e.file 0 [] e.keydir

theorem diskWf_empty : DiskWf emptyDisk := ParsesTo.done []

theorem diskWf_set {e : DiskEngine} (k v : List Nat) (hk : k.length < 2 ^ 32)
    (hv : v.length < 2 ^ 31) (htot : k.length + v.length + 8 < 2 ^ 32)
    (h : DiskWf e) : DiskWf (diskSet k v e) := by
  have h1 : k.length % 2 ^ 32 = k.length := Nat.mod_eq_of_lt hk
  have h2 : v.length % 2 ^ 32 = v.length := Nat.mod_eq_of_lt (by omega)
  have h3 : (k.length % 2 ^ 32 + v.length % 2 ^ 32 + 8) % 2 ^ 32 =
      k.length + v.length + 8 := by
    rw [h1, h2]
    exact Nat.mod_eq_of_lt htot
  show ParsesTo (e.file ++ recordBytes k (some v)) 0 []
    (aSet k (e.file.length +
        (k.length % 2 ^ 32 + v.length % 2 ^ 32 + 8) % 2 ^ 32 -
        v.length % 2 ^ 32, v.length % 2 ^ 32) e.keydir)
  rw [h3, h2, show e.file.length + (k.length + v.length + 8) - v.length =
    e.file.length + 8 + k.length by omega]
  exact parsesTo_append h (parsesTo_record_set e.keydir hk hv)

theorem diskWf_del {e : DiskEngine} (k : List Nat) (hk : k.length < 2 ^ 32)
    (h : DiskWf e) : DiskWf (diskDelete k e) :=
  parsesTo_append h (parsesTo_record_del e.keydir hk)

/-- Per-operation size conditions (`usize → u32`/`i32` casts in
`write_entry` stay exact for realistic key/value sizes). -/
def opOk : DiskOp → Bool
  | .set k v => decide (k.length + v.length + 8 < 2 ^ 32) &&
      decide (v.length < 2 ^ 31)
  | .del k => decide (k.length < 2 ^ 32)

theorem diskWf_apply (ops : List DiskOp) (hops : ∀ op ∈ ops, opOk op = true) :
    ∀ e : DiskEngine, DiskWf e → DiskWf (applyDiskOps ops e) := by
  induction ops with
  | nil => exact fun e h => h
  | cons op rest ih =>
    intro e h
    have hop := hops op (List.mem_cons_self _ _)
    have hrest := fun o ho => hops o (List.mem_cons_of_mem _ ho)
    cases op with
    | set k v =>
      simp only [opOk, Bool.and_eq_true, decide_eq_true_eq] at hop
      exact ih hrest _ (diskWf_set k v (by omega) hop.2 hop.1 h)
    | del k =>
      simp only [opOk, decide_eq_true_eq] at hop
      exact ih hrest _ (diskWf_del k hop h)

theorem build_keydir_of_wf {e : DiskEngine} (h : DiskWf e) :
    build_keydir e.file = some e.keydir :=
  buildFrom_of_parsesTo h

theorem parsesTo_sorted {file : List Nat} {offset : Nat} {kd kd' : KeyDir}
    (h : ParsesTo file offset kd kd') : SortedA kd → SortedA kd' := by
  induction h with
  | done kd => exact fun hs => hs
  | set offset kd km key raw hre hraw hend hrest ih =>
    exact fun hs => ih (sortedA_aSet _ _ hs)
  | del offset kd km key hre hend hrest ih =>
    exact fun hs => ih (sortedA_aDelete _ hs)

theorem i32ExtU64_ge (raw : Nat) : raw ≤ i32ExtU64 raw := by
  unfold i32ExtU64
  split <;> omega

theorem parsesTo_bounds {file : List Nat} {offset : Nat} {kd kd' : KeyDir}
    (h : ParsesTo file offset kd kd') :
    (∀ en ∈ kd, en.2.1 + en.2.2 ≤ file.length) →
      ∀ en ∈ kd', en.2.1 + en.2.2 ≤ file.length := by
  induction h with
  | done kd => exact fun hs => hs
  | set offset kd km key raw hre hraw hend hrest ih =>
    intro hs
    refine ih ?_
    intro en hen
    rcases mem_of_mem_aSet hen with rfl | hmem
    · have := i32ExtU64_ge raw
      simp only []
      omega
    · exact hs en hmem
  | del offset kd km key hre hend hrest ih =>
    exact fun hs => ih (fun en hen => hs en (mem_of_mem_aDelete hen))

theorem aGet_eq_none_forall {β : Type} {k : List Nat} {m : AListB β}
    (h : aGet k m = none) : ∀ y ∈ m, y.1 ≠ k := by
  induction m with
  | nil =>
    intro y hy
    cases hy
  | cons e rest ih =>
    cases e with
    | mk k' v' =>
      intro y hy
      by_cases hk : k = k'
      · rw [aGet, if_pos hk] at h
        exact absurd h (by simp)
      · rw [aGet, if_neg hk] at h
        rcases List.mem_cons.mp hy with rfl | hy'
        · exact fun hc => hk hc.symm
        · exact ih h y hy'

theorem aSet_append {β : Type} {k : List Nat} {v : β} {m : AListB β}
    (h : ∀ e ∈ m, ltB e.1 k = true) : aSet k v m = m ++ [(k, v)] := by
  induction m with
  | nil => rfl
  | cons e rest ih =>
    cases e with
    | mk k' v' =>
      have hk' : ltB k' k = true := h (k', v') (List.mem_cons_self _ _)
      have h1 : ¬ ltB k k' = true := by
        rw [ltB_asymm hk']
        exact Bool.false_ne_true
      have h2 : k ≠ k' := by
        rintro rfl
        rw [ltB_irrefl] at hk'
        exact Bool.noConfusion hk'
      simp only [aSet, h1, h2, Bool.false_eq_true, if_false]
      rw [ih (fun e he => h e (List.mem_cons_of_mem _ he))]
      rfl

/-- The inductive heart of `DiskEngine::compact`: the rewrite loop
produces the concatenation of one fresh record per keydir entry, in
iteration (= key) order, and the new keydir's entries point at exactly the
old values inside the new log. -/
theorem compactGo_spec (file : List Nat) :
    ∀ entries : KeyDir, SortedA entries →
      (∀ en ∈ entries, en.2.1 + en.2.2 ≤ file.length ∧
        en.1.length + en.2.2 + 8 < 2 ^ 32) →
      ∀ (newKd : KeyDir) (acc : List Nat),
        (∀ x ∈ newKd, ∀ y ∈ entries, ltB x.1 y.1 = true) →
        ∃ kd' : KeyDir,
          compactGo file entries newKd acc = some (kd',
            acc ++ (entries.map (fun en =>
              recordBytes en.1 (some (slice file en.2.1 en.2.2)))).flatten) ∧
          (∀ k off sz, (k, (off, sz)) ∈ entries →
            ∃ noff, aGet k kd' = some (noff, sz) ∧
              noff + sz ≤ (acc ++ (entries.map (fun en =>
                recordBytes en.1
                  (some (slice file en.2.1 en.2.2)))).flatten).length ∧
              slice (acc ++ (entries.map (fun en =>
                  recordBytes en.1 (some (slice file en.2.1 en.2.2)))).flatten)
                noff sz = slice file off sz) ∧
          (∀ k, (∀ y ∈ entries, y.1 ≠ k) → aGet k kd' = aGet k newKd) ∧
          kd'.map Prod.fst = newKd.map Prod.fst ++ entries.map Prod.fst := by
  intro entries
  induction entries with
  | nil =>
    intro hsort hbnd newKd acc hbelow
    refine ⟨newKd, by simp [compactGo], ?_, fun k hk => rfl, by simp⟩
    intro k off sz hmem
    cases hmem
  | cons e0 rest ih =>
    rcases e0 with ⟨k0, off0, sz0⟩
    intro hsort hbnd newKd acc hbelow
    obtain ⟨hhead, hsrest⟩ := List.pairwise_cons.mp hsort
    have hb0 := hbnd (k0, off0, sz0) (List.mem_cons_self _ _)
    have hoffsz : off0 + sz0 ≤ file.length := hb0.1
    have hsz32 : k0.length + sz0 + 8 < 2 ^ 32 := hb0.2
    have hvlen : (slice file off0 sz0).length = sz0 := slice_length hoffsz
    have htotm : (k0.length % 2 ^ 32 +
        (slice file off0 sz0).length % 2 ^ 32 + 8) % 2 ^ 32 =
        k0.length + sz0 + 8 := by
      rw [hvlen, Nat.mod_eq_of_lt (show k0.length < 2 ^ 32 by omega),
        Nat.mod_eq_of_lt (show sz0 < 2 ^ 32 by omega)]
      exact Nat.mod_eq_of_lt hsz32
    have hstep : compactGo file ((k0, (off0, sz0)) :: rest) newKd acc =
        compactGo file rest
          (aSet k0 (acc.length + 8 + k0.length, sz0) newKd)
          (acc ++ recordBytes k0 (some (slice file off0 sz0))) := by
      simp only [compactGo, if_pos hoffsz]
      rw [htotm, show acc.length + (k0.length + sz0 + 8) - sz0 =
        acc.length + 8 + k0.length by omega]
    have hreclen : (recordBytes k0 (some (slice file off0 sz0))).length =
        8 + k0.length + sz0 := by
      rw [recordBytes_length, Option.getD_some, hvlen]
    obtain ⟨kd', heq, hmem, hskip, hmap⟩ :=
      ih hsrest (fun en hen => hbnd en (List.mem_cons_of_mem _ hen))
        (aSet k0 (acc.length + 8 + k0.length, sz0) newKd)
        (acc ++ recordBytes k0 (some (slice file off0 sz0)))
        (by
          intro x hx y hy
          rcases mem_of_mem_aSet hx with rfl | hx'
          · exact hhead y hy
          · exact hbelow x hx' y (List.mem_cons_of_mem _ hy))
    have hflat : acc ++ (((k0, (off0, sz0)) :: rest).map (fun en =>
        recordBytes en.1 (some (slice file en.2.1 en.2.2)))).flatten =
        (acc ++ recordBytes k0 (some (slice file off0 sz0))) ++
          (rest.map (fun en => recordBytes en.1
            (some (slice file en.2.1 en.2.2)))).flatten := by
      simp [List.append_assoc]
    refine ⟨kd', ?_, ?_, ?_, ?_⟩
    · rw [hstep, hflat]
      exact heq
    · intro k off sz hmemc
      rcases List.mem_cons.mp hmemc with he | hr
      · obtain ⟨rfl, rfl, rfl⟩ : k = k0 ∧ off = off0 ∧ sz = sz0 := by
          simpa using he
        refine ⟨acc.length + 8 + k.length, ?_, ?_, ?_⟩
        · have hnot : ∀ y ∈ rest, y.1 ≠ k := by
            intro y hy
            have hlt : ltB k y.1 = true := hhead y hy
            intro hc
            rw [hc, ltB_irrefl] at hlt
            exact Bool.noConfusion hlt
          rw [hskip k hnot, aGet_aSet_self]
        · rw [hflat]
          simp only [List.length_append, hreclen]
          omega
        · rw [hflat,
            slice_append_left (by
              simp only [List.length_append, hreclen]
              omega),
            slice_append_right (show acc.length ≤ acc.length + 8 + k.length
              by omega),
            show acc.length + 8 + k.length - acc.length = 8 + k.length
              by omega]
          exact slice_record_value_of_len k _ hvlen
      · obtain ⟨noff, hg, hbnd', hsl⟩ := hmem k off sz hr
        refine ⟨noff, hg, ?_, ?_⟩
        · rw [hflat]
          exact hbnd'
        · rw [hflat]
          exact hsl
    · intro k hall
      have hrest' : ∀ y ∈ rest, y.1 ≠ k :=
        fun y hy => hall y (List.mem_cons_of_mem _ hy)
      have hk0 : k0 ≠ k := hall (k0, (off0, sz0)) (List.mem_cons_self _ _)
      rw [hskip k hrest', aGet_aSet_ne (fun hc => hk0 hc.symm)]
    · rw [hmap, aSet_append (fun e he => hbelow e he (k0, (off0, sz0))
        (List.mem_cons_self _ _)), List.map_append]
      simp [List.append_assoc]

/-- **C8** — Compaction preserves values.  On a well-formed engine state
(keydir rebuilt by replay, realistic sizes), `compact` succeeds,
`open_compacted` yields that very engine, every `get` answers exactly as
on the uncompacted engine, each rebuilt keydir entry points at its value's
payload in the new file, and the new log is exactly one record per live
key written in ascending key order. -/
theorem compaction_preserves (e : DiskEngine) (h : DiskWf e)
    (hsz : ∀ en ∈ e.keydir, en.1.length + en.2.2 + 8 < 2 ^ 32) :
    ∃ e' : DiskEngine, compactFn e = some e' ∧
      new_compact e.file = some e' ∧
      (∀ key, diskGet key e' = diskGet key e) ∧
      (∀ k off sz, aGet k e.keydir = some (off, sz) →
        ∃ noff, aGet k e'.keydir = some (noff, sz) ∧
          noff + sz ≤ e'.file.length ∧
          slice e'.file noff sz = slice e.file off sz) ∧
      SortedA e.keydir ∧
      e'.file = (e.keydir.map (fun en =>
        recordBytes en.1 (some (slice e.file en.2.1 en.2.2)))).flatten ∧
      e'.keydir.map Prod.fst = e.keydir.map Prod.fst := by
  have hsort : SortedA e.keydir := parsesTo_sorted h sortedA_nil
  have hbounds : ∀ en ∈ e.keydir, en.2.1 + en.2.2 ≤ e.file.length :=
    parsesTo_bounds h (by intro en hen; cases hen)
  obtain ⟨kd', heq, hmem, hskip, hmap⟩ :=
    compactGo_spec e.file e.keydir hsort
      (fun en hen => ⟨hbounds en hen, hsz en hen⟩) [] []
      (by intro x hx; cases hx)
  have hF : ([] : List Nat) ++ (e.keydir.map (fun en =>
      recordBytes en.1 (some (slice e.file en.2.1 en.2.2)))).flatten =
      (e.keydir.map (fun en =>
        recordBytes en.1 (some (slice e.file en.2.1 en.2.2)))).flatten :=
    List.nil_append _
  have he1 : compactFn e = some ⟨kd', (e.keydir.map (fun en =>
      recordBytes en.1 (some (slice e.file en.2.1 en.2.2)))).flatten⟩ := by
    unfold compactFn
    rw [heq]
    simp
  have he2 : new_compact e.file = some (⟨kd', (e.keydir.map (fun en =>
      recordBytes en.1 (some (slice e.file en.2.1 en.2.2)))).flatten⟩ :
      DiskEngine) := by
    unfold new_compact diskOpen
    rw [build_keydir_of_wf h]
    show compactFn ⟨e.keydir, e.file⟩ = _
    unfold compactFn
    rw [show (⟨e.keydir, e.file⟩ : DiskEngine).file = e.file from rfl,
      show (⟨e.keydir, e.file⟩ : DiskEngine).keydir = e.keydir from rfl, heq]
    simp
  have he3 : ∀ key, diskGet key (⟨kd', (e.keydir.map (fun en =>
      recordBytes en.1 (some (slice e.file en.2.1 en.2.2)))).flatten⟩ :
      DiskEngine) = diskGet key e := by
    intro key
    unfold diskGet
    cases hk : aGet key e.keydir with
    | none =>
      have hall : ∀ y ∈ e.keydir, y.1 ≠ key := aGet_eq_none_forall hk
      rw [show aGet key (⟨kd', (e.keydir.map (fun en =>
          recordBytes en.1 (some (slice e.file en.2.1 en.2.2)))).flatten⟩ :
          DiskEngine).keydir = aGet key kd' from rfl, hskip key hall]
      rfl
    | some p =>
      rcases p with ⟨off, sz⟩
      have hmm : (key, (off, sz)) ∈ e.keydir := aGet_some_mem hk
      obtain ⟨noff, hg, hbnd2, hsl⟩ := hmem key off sz hmm
      rw [hF] at hbnd2 hsl
      have hold : off + sz ≤ e.file.length := hbounds (key, (off, sz)) hmm
      rw [show aGet key (⟨kd', (e.keydir.map (fun en =>
          recordBytes en.1 (some (slice e.file en.2.1 en.2.2)))).flatten⟩ :
          DiskEngine).keydir = aGet key kd' from rfl, hg]
      simp only [hsl, hbnd2, hold, if_true, ite_true]
  have he4 : ∀ k off sz, aGet k e.keydir = some (off, sz) →
      ∃ noff, aGet k kd' = some (noff, sz) ∧
        noff + sz ≤ (e.keydir.map (fun en =>
          recordBytes en.1 (some (slice e.file en.2.1 en.2.2)))).flatten.length ∧
        slice (e.keydir.map (fun en =>
          recordBytes en.1 (some (slice e.file en.2.1 en.2.2)))).flatten
          noff sz = slice e.file off sz := by
    intro k off sz hk
    have hmm : (k, (off, sz)) ∈ e.keydir := aGet_some_mem hk
    obtain ⟨noff, hg, hbnd2, hsl⟩ := hmem k off sz hmm
    rw [hF] at hbnd2 hsl
    exact ⟨noff, hg, hbnd2, hsl⟩
  refine ⟨⟨kd', (e.keydir.map (fun en =>
      recordBytes en.1 (some (slice e.file en.2.1 en.2.2)))).flatten⟩,
    ?_, ?_, ?_, ?_, ?_, ?_, ?_⟩
  · exact he1
  · exact he2
  · exact he3
  · exact he4
  · exact hsort
  · rfl
  · simpa using hmap

theorem compaction_preserves_witness :
    ∃ e' : DiskEngine,
      compactFn (diskSet [1] [7, 8] (diskSet [] [9] emptyDisk)) = some e' ∧
      ∀ key, diskGet key e' =
        diskGet key (diskSet [1] [7, 8] (diskSet [] [9] emptyDisk)) := by
  obtain ⟨e', h1, -, h3, -⟩ :=
    compaction_preserves (diskSet [1] [7, 8] (diskSet [] [9] emptyDisk))
      (diskWf_set [1] [7, 8] (by decide) (by decide) (by decide)
        (diskWf_set [] [9] (by decide) (by decide) (by decide) diskWf_empty))
      (by decide)
  exact ⟨e', h1, h3⟩

/-- **C6** — Reopen round-trip.  For every finite sequence of `set`/`delete`
operations (with realistic sizes: each key/value record below the u32 cast
limits) applied to a fresh disk engine, replaying the log with
`build_keydir` rebuilds exactly the keydir as it stood at close, and the
engine that `DiskEngine::new` returns on reopening answers every `get`
exactly as the engine did before the close. -/
theorem reopen_roundtrip (ops : List DiskOp)
    (hops : ∀ op ∈ ops, opOk op = true) :
    build_keydir (applyDiskOps ops emptyDisk).file =
        some (applyDiskOps ops emptyDisk).keydir ∧
      ∀ e' : DiskEngine, diskOpen (applyDiskOps ops emptyDisk).file = some e' →
        ∀ key, diskGet key e' = diskGet key (applyDiskOps ops emptyDisk) := by
  have hwf := diskWf_apply ops hops emptyDisk diskWf_empty
  have hb := build_keydir_of_wf hwf
  refine ⟨hb, ?_⟩
  intro e' he' key
  unfold diskOpen at he'
  rw [hb] at he'
  simp only [Option.map_some', Option.some.injEq] at he'
  rw [← he']

/-- **C10** — Empty keys and empty values are first-class at the engine
interface: `set(k, [])` followed by `get(k)` returns `some []` for every
key `k` (the empty key included), distinct from the `none` a never-set key
returns; the record for an empty key and empty value is exactly the 8-byte
header; and the empty-value/absent distinction survives close and
reopen. -/
theorem empty_key_value_first_class (e : DiskEngine) (k : List Nat)
    (hk : k.length + 8 < 2 ^ 32) :
    diskGet k (diskSet k [] e) = .ok (some []) ∧
      diskGet ([] : List Nat) emptyDisk = .ok none ∧
      (recordBytes ([] : List Nat) (some [])).length = 8 ∧
      build_keydir (diskSet [] [] emptyDisk).file =
        some (diskSet [] [] emptyDisk).keydir ∧
      ∀ e' : DiskEngine, diskOpen (diskSet [] [] emptyDisk).file = some e' →
        diskGet ([] : List Nat) e' = .ok (some []) := by
  have hk32 : k.length < 2 ^ 32 := by omega
  have h1 : k.length % 2 ^ 32 = k.length := Nat.mod_eq_of_lt hk32
  have hc1 : diskGet k (diskSet k [] e) = .ok (some []) := by
    unfold diskGet diskSet
    simp only [List.length_nil, Nat.zero_mod, Nat.add_zero, Nat.sub_zero, h1]
    rw [show (k.length + 8) % 2 ^ 32 = k.length + 8 from Nat.mod_eq_of_lt hk]
    rw [aGet_aSet_self]
    simp only [List.length_append, recordBytes_length, List.length_nil,
      Option.getD_some]
    rw [if_pos (by omega)]
    simp [slice]
  have hwf : DiskWf (diskSet [] [] emptyDisk) :=
    diskWf_set [] [] (by decide) (by decide) (by decide) diskWf_empty
  have hb := build_keydir_of_wf hwf
  refine ⟨hc1, rfl, rfl, hb, ?_⟩
  intro e' he'
  unfold diskOpen at he'
  rw [hb] at he'
  simp only [Option.map_some', Option.some.injEq] at he'
  rw [← he']
  rfl

theorem empty_key_value_first_class_witness :
    ([5] : List Nat).length + 8 < 2 ^ 32 ∧
      diskGet [5] (diskSet [5] [] emptyDisk) = .ok (some []) :=
  ⟨by decide, (empty_key_value_first_class emptyDisk [5] (by decide)).1⟩

theorem reopen_roundtrip_witness :
    (∀ op ∈ [DiskOp.set [0] [1, 2], DiskOp.del [0], DiskOp.set [] [7]],
        opOk op = true) ∧
      build_keydir (applyDiskOps
          [DiskOp.set [0] [1, 2], DiskOp.del [0], DiskOp.set [] [7]]
          emptyDisk).file =
        some (applyDiskOps
          [DiskOp.set [0] [1, 2], DiskOp.del [0], DiskOp.set [] [7]]
          emptyDisk).keydir :=
  ⟨by decide,
    (reopen_roundtrip [DiskOp.set [0] [1, 2], DiskOp.del [0],
      DiskOp.set [] [7]] (by decide)).1⟩

end SqlDb
